import Mathlib

/-!
Shallow embedding of the array-utilities library (mixed-value comparator,
bubble sort, quicksort, validation chain, and the validated array operations)
together with proofs about the claims of the specification.

Modelling conventions:
* JS numbers are modelled as exact rationals extended with the three IEEE
  specials (`posInf`, `negInf`, `nan`).  Floating-point rounding is not
  modelled; every arithmetic operation used by the code (subtraction,
  addition, division, max, min, truncation) is exact on the rationals and
  follows the IEEE special-value rules.
* Array elements are numbers or strings (the only element kinds the library
  manipulates); arguments of the public operations range over a larger
  universe `JSArg` that also has null, undefined, booleans, arrays and
  function values, which the validation layer inspects.
* `String.prototype.localeCompare` is modelled as code-point lexicographic
  comparison returning -1, 0 or 1.  All concrete strings appearing in the
  theorems below (lowercase words, digit strings, "NaN", "Infinity") are
  ordered identically by the default locale collation and by code points.
* `Number(string)` is modelled by `toNumberStr` following the ECMAScript
  StringNumericLiteral grammar: whitespace trimming, empty string is 0,
  optional sign, "Infinity", decimal literals with optional fraction and
  exponent, and unsigned hex/octal/binary literals.  Huge literals are kept
  exact instead of being rounded to a double.
* Rendering of a number as a string (`numToString`) is exact for NaN, the
  infinities and integral values (the only values the theorems evaluate it
  on); non-integral rationals are rendered schematically.
* The logging collaborator is pure observability and is not modelled; the
  JS functions mutate the caller array and return nothing, so each modelled
  operation returns the final contents of that array (or the first
  validation failure, since a thrown error leaves the array untouched).
-/

/-- Extended JS number: an exact rational or one of the IEEE specials. -/
inductive JSNum where
  | fin (q : ℚ)
  | posInf
  | negInf
  | nan
deriving DecidableEq, Repr

namespace JSNum

/-- True on the NaN value, mirroring the global isNaN on numbers. -/
def isNaN : JSNum → Bool
  | nan => true
  | _ => false

/-- True on finite values. -/
def isFin : JSNum → Bool
  | fin _ => true
  | _ => false

end JSNum

/-- Unary minus on JS numbers. -/
def jsNeg : JSNum → JSNum
  | .fin q => .fin (-q)
  | .posInf => .negInf
  | .negInf => .posInf
  | .nan => .nan

/-- Exact rational addition, written with cross-multiplied integer
arithmetic so that closed terms reduce fully (`ratAdd_eq` below shows it is
ordinary rational addition). -/
def ratAdd (a b : ℚ) : ℚ :=
  Rat.divInt (a.num * b.den + b.num * a.den) (a.den * b.den)

/-- Addition on JS numbers with the IEEE special-value rules. -/
def jsAdd : JSNum → JSNum → JSNum
  | .nan, _ => .nan
  | _, .nan => .nan
  | .posInf, .negInf => .nan
  | .negInf, .posInf => .nan
  | .posInf, _ => .posInf
  | _, .posInf => .posInf
  | .negInf, _ => .negInf
  | _, .negInf => .negInf
  | .fin a, .fin b => .fin (ratAdd a b)

/-- Subtraction on JS numbers (IEEE a - b is a + (-b)). -/
def jsSub (a b : JSNum) : JSNum := jsAdd a (jsNeg b)

/-- Division on JS numbers with the IEEE special-value rules (the single
model zero is treated as +0, which is the only zero the library produces). -/
def jsDiv : JSNum → JSNum → JSNum
  | .nan, _ => .nan
  | _, .nan => .nan
  | .posInf, .posInf => .nan
  | .posInf, .negInf => .nan
  | .negInf, .posInf => .nan
  | .negInf, .negInf => .nan
  | .posInf, .fin q => if q < 0 then .negInf else .posInf
  | .negInf, .fin q => if q < 0 then .posInf else .negInf
  | .fin _, .posInf => .fin 0
  | .fin _, .negInf => .fin 0
  | .fin a, .fin b =>
    if b = 0 then (if a = 0 then .nan else if 0 < a then .posInf else .negInf)
    else .fin (a / b)

/-- Binary maximum as used by Math.max: NaN poisons, otherwise the larger. -/
def jsMax2 : JSNum → JSNum → JSNum
  | .nan, _ => .nan
  | _, .nan => .nan
  | .posInf, _ => .posInf
  | _, .posInf => .posInf
  | .negInf, b => b
  | a, .negInf => a
  | .fin a, .fin b => .fin (max a b)

/-- Binary minimum as used by Math.min: NaN poisons, otherwise the smaller. -/
def jsMin2 : JSNum → JSNum → JSNum
  | .nan, _ => .nan
  | _, .nan => .nan
  | .negInf, _ => .negInf
  | _, .negInf => .negInf
  | .posInf, b => b
  | a, .posInf => a
  | .fin a, .fin b => .fin (min a b)

/-- Truth of the JS comparison n > 0 (false on NaN); a finite rational is
positive exactly when its numerator is. -/
def isPosB : JSNum → Bool
  | .fin q => decide (0 < q.num)
  | .posInf => true
  | _ => false

/-- Truth of the JS comparison n < 0 (false on NaN); a finite rational is
negative exactly when its numerator is. -/
def isNegB : JSNum → Bool
  | .fin q => decide (q.num < 0)
  | .negInf => true
  | _ => false

/-- The cross-multiplied addition is ordinary rational addition. -/
theorem ratAdd_eq (a b : ℚ) : ratAdd a b = a + b := by
  have hda : ((a.den : ℚ)) ≠ 0 := by exact_mod_cast a.den_nz
  have hdb : ((b.den : ℚ)) ≠ 0 := by exact_mod_cast b.den_nz
  have ha2 : (a.num : ℚ) = a * a.den := (div_eq_iff hda).mp (Rat.num_div_den a)
  have hb2 : (b.num : ℚ) = b * b.den := (div_eq_iff hdb).mp (Rat.num_div_den b)
  rw [ratAdd, Rat.divInt_eq_div]
  push_cast
  rw [div_eq_iff (by exact mul_ne_zero hda hdb), ha2, hb2]
  ring

/-- Whitespace characters recognised by the model (the ASCII subset of the
ECMAScript WhiteSpace and LineTerminator productions). -/
def isWsChar (c : Char) : Bool :=
  c = ' ' || c = '\t' || c = '\n' || c = '\r' || c = '\x0b' || c = '\x0c'

/-- Trims leading and trailing whitespace from a character list. -/
def trimWs (cs : List Char) : List Char :=
  ((cs.dropWhile isWsChar).reverse.dropWhile isWsChar).reverse

/-- Numeric value of a digit character in radix up to 16. -/
def digitValue (c : Char) : Nat :=
  if c.isDigit then c.toNat - '0'.toNat
  else if 'a' ≤ c ∧ c ≤ 'f' then c.toNat - 'a'.toNat + 10
  else if 'A' ≤ c ∧ c ≤ 'F' then c.toNat - 'A'.toNat + 10
  else 0

/-- True when the character is a digit of the given radix (2, 8, 10 or 16). -/
def isRadixDigit (r : Nat) (c : Char) : Bool :=
  (c.isDigit && digitValue c < r) ||
    (r = 16 && (('a' ≤ c && c ≤ 'f') || ('A' ≤ c && c ≤ 'F')))

/-- Value of a digit list in the given radix. -/
def radixValue (r : Nat) (cs : List Char) : Nat :=
  cs.foldl (fun a c => r * a + digitValue c) 0

/-- Parses an unsigned non-decimal integer literal body (after 0x, 0o, 0b). -/
def radixNum (r : Nat) (ds : List Char) : JSNum :=
  if !ds.isEmpty && ds.all (isRadixDigit r) then .fin (radixValue r ds) else .nan

/-- Parses the exponent digits of a decimal literal, sign included. -/
def parseExpPart (cs : List Char) : Option Int :=
  match cs with
  | '+' :: ds => if !ds.isEmpty && ds.all Char.isDigit then some (radixValue 10 ds) else none
  | '-' :: ds => if !ds.isEmpty && ds.all Char.isDigit then some (-(radixValue 10 ds : Int)) else none
  | ds => if !ds.isEmpty && ds.all Char.isDigit then some (radixValue 10 ds) else none

/-- Powers of ten as naturals (kept structural so terms reduce fully). -/
def pow10 : Nat → Nat
  | 0 => 1
  | n + 1 => 10 * pow10 n

/-- Parses an unsigned decimal literal: digits, optional dot and fraction
digits, optional exponent; at least one digit must be present and the whole
input must be consumed.  The value (intPart.fracPart) * 10 ^ exponent is
assembled as the exact rational mantissa / scale. -/
def parseDecimal (cs : List Char) : Option ℚ :=
  let intD := cs.takeWhile Char.isDigit
  let rest1 := cs.dropWhile Char.isDigit
  let fracD := match rest1 with
    | '.' :: rest2 => rest2.takeWhile Char.isDigit
    | _ => []
  let rest3 := match rest1 with
    | '.' :: rest2 => rest2.dropWhile Char.isDigit
    | other => other
  if intD.isEmpty && fracD.isEmpty then none
  else
    let mantissa : Int := Int.ofNat (radixValue 10 intD * pow10 fracD.length
      + radixValue 10 fracD)
    let scale : Int := Int.ofNat (pow10 fracD.length)
    match rest3 with
    | [] => some (Rat.divInt mantissa scale)
    | e :: rest4 =>
      if e = 'e' || e = 'E' then
        (parseExpPart rest4).map (fun ex =>
          if 0 ≤ ex then Rat.divInt (mantissa * Int.ofNat (pow10 ex.toNat)) scale
          else Rat.divInt mantissa (scale * Int.ofNat (pow10 (-ex).toNat)))
      else none

/-- Parses the body of a signed string numeric literal: Infinity or decimal. -/
def strBody (cs : List Char) : Option JSNum :=
  if cs = "Infinity".data then some .posInf
  else (parseDecimal cs).map .fin

/-- Models Number(string) on a string argument: the ECMAScript
StringNumericLiteral evaluation (see the module conventions above). -/
def toNumberStr (s : String) : JSNum :=
  match trimWs s.data with
  | [] => .fin 0
  | '0' :: 'x' :: ds => radixNum 16 ds
  | '0' :: 'X' :: ds => radixNum 16 ds
  | '0' :: 'o' :: ds => radixNum 8 ds
  | '0' :: 'O' :: ds => radixNum 8 ds
  | '0' :: 'b' :: ds => radixNum 2 ds
  | '0' :: 'B' :: ds => radixNum 2 ds
  | '+' :: t => match strBody t with | some n => n | none => .nan
  | '-' :: t => match strBody t with | some n => jsNeg n | none => .nan
  | t => match strBody t with | some n => n | none => .nan

/-- Rendering of a JS number as a string.  Exact for NaN, the infinities and
integral values; non-integral rationals are rendered schematically (the
shortest-round-trip double rendering is not modelled; no theorem below
evaluates this function on a non-integral value). -/
def numToString : JSNum → String
  | .nan => "NaN"
  | .posInf => "Infinity"
  | .negInf => "-Infinity"
  | .fin q => if q.den = 1 then toString q.num else toString q

/-- Array element: the library only ever stores numbers and strings. -/
inductive JSElem where
  | num (n : JSNum)
  | str (s : String)
deriving DecidableEq, Repr

/-- Models Number(elem): identity on numbers, literal parsing on strings. -/
def toNumber : JSElem → JSNum
  | .num n => n
  | .str s => toNumberStr s

/-- Models String(elem) / elem.toString(). -/
def elemToString : JSElem → String
  | .num n => numToString n
  | .str s => s

/-- Code-point lexicographic three-way comparison of character lists. -/
def lexCmp : List Char → List Char → Int
  | [], [] => 0
  | [], _ :: _ => -1
  | _ :: _, [] => 1
  | a :: as, b :: bs => if a < b then -1 else if b < a then 1 else lexCmp as bs

/-- Model of String.prototype.localeCompare (see module conventions). -/
def localeCmp (s t : String) : Int := lexCmp s.data t.data

/-- Model of compareValues / compareMixed from the source: numeric difference
when both operands coerce to non-NaN numbers, locale comparison when both are
strings, otherwise locale comparison of the stringified numeric coercion of
the first operand against the stringified second operand. -/
def compareValues (a b : JSElem) : JSNum :=
  let numA := toNumber a
  let numB := toNumber b
  if !numA.isNaN && !numB.isNaN then
    jsSub numA numB
  else
    match a, b with
    | .str sa, .str sb => .fin (localeCmp sa sb)
    | _, _ => .fin (localeCmp (numToString numA) (elemToString b))

/-- Sort direction; the code reaches the sorting kernels only after
validating that the order flag is the string asc or the string desc. -/
inductive SortOrder where
  | asc
  | desc
deriving DecidableEq, Repr

/-- Bubble-sort swap condition from the source:
(order === asc and comparison > 0) or (order === desc and comparison < 0). -/
def swapCond (ord : SortOrder) (a b : JSElem) : Bool :=
  match ord with
  | .asc => isPosB (compareValues a b)
  | .desc => isNegB (compareValues a b)

/-- Quicksort left-bucket condition from the source:
(asc and comparison < 0) or (desc and comparison > 0). -/
def leftCond (ord : SortOrder) (x pivot : JSElem) : Bool :=
  match ord with
  | .asc => isNegB (compareValues x pivot)
  | .desc => isPosB (compareValues x pivot)

/-- Quicksort right-bucket condition from the source:
(asc and comparison > 0) or (desc and comparison < 0). -/
def rightCond (ord : SortOrder) (x pivot : JSElem) : Bool :=
  match ord with
  | .asc => isPosB (compareValues x pivot)
  | .desc => isNegB (compareValues x pivot)

/-- One compare-and-swap of the bubble-sort inner loop body at positions j
and j+1 (out-of-range positions leave the list unchanged, matching the fact
that the loop bounds keep the indices in range). -/
def swapAdj (ord : SortOrder) (l : List JSElem) (j : Nat) : List JSElem :=
  match l.get? j, l.get? (j + 1) with
  | some a, some b => if swapCond ord a b then (l.set j b).set (j + 1) a else l
  | _, _ => l

/-- The bubble-sort inner loop: k remaining iterations with loop counter j. -/
def innerIter (ord : SortOrder) : Nat → Nat → List JSElem → List JSElem
  | 0, _, l => l
  | k + 1, j, l => innerIter ord k (j + 1) (swapAdj ord l j)

/-- The bubble-sort outer loop: k remaining iterations with loop counter i;
each iteration runs the inner loop for n - i - 1 steps starting at j = 0. -/
def outerIter (ord : SortOrder) (n : Nat) : Nat → Nat → List JSElem → List JSElem
  | 0, _, l => l
  | k + 1, i, l => outerIter ord n k (i + 1) (innerIter ord (n - i - 1) 0 l)

/-- The bubble-sort kernel of the source (the nested loops between the
validations): the outer loop runs length - 1 times from i = 0. -/
def bubbleRun (ord : SortOrder) (l : List JSElem) : List JSElem :=
  outerIter ord l.length (l.length - 1) 0 l

/-- Structural form of one bounded bubble pass: with fuel k it performs the
compare-and-swaps at positions 0..k-1, i.e. what the inner loop does in k
iterations starting from j = 0. -/
def bubblePass (ord : SortOrder) : Nat → List JSElem → List JSElem
  | 0, l => l
  | _ + 1, [] => []
  | _ + 1, [a] => [a]
  | k + 1, a :: b :: t =>
    if swapCond ord a b then b :: bubblePass ord k (a :: t)
    else a :: bubblePass ord k (b :: t)

/-- Structural form of the whole bubble sort: passes with fuel k, k-1, .., 1. -/
def bubbleSpec (ord : SortOrder) : Nat → List JSElem → List JSElem
  | 0, l => l
  | k + 1, l => bubbleSpec ord k (bubblePass ord (k + 1) l)

/-- Helper for the quicksort termination argument: filtering with a
predicate that is false somewhere in the list strictly shrinks it. -/
theorem length_filter_lt_of_mem {p : JSElem → Bool} {l : List JSElem} {x : JSElem}
    (hx : x ∈ l) (hpx : p x = false) : (l.filter p).length < l.length := by
  induction l with
  | nil => cases hx
  | cons a t ih =>
    by_cases hpa : p a = true
    · rcases List.mem_cons.mp hx with rfl | hxt
      · rw [hpa] at hpx; cases hpx
      · simp only [List.filter_cons, hpa, if_true, List.length_cons]
        exact Nat.succ_lt_succ (ih hxt)
    · simp only [List.filter_cons, Bool.not_eq_true] at hpa
      simp only [List.filter_cons, hpa, List.length_cons]
      exact Nat.lt_succ_of_le (List.length_filter_le p t)

/-- Comparing a value with itself never lands in the left bucket. -/
theorem leftCond_self (ord : SortOrder) (v : JSElem) : leftCond ord v v = false := by
  cases ord <;> cases v with
  | num n => cases n <;> simp [leftCond, compareValues, toNumber, JSNum.isNaN, jsSub, jsNeg,
      jsAdd, ratAdd_eq, isNegB, isPosB, numToString, elemToString, localeCmp, lexCmp]
  | str s =>
    cases h : toNumberStr s with
    | fin q => simp [leftCond, compareValues, toNumber, h, JSNum.isNaN, jsSub, jsNeg, jsAdd,
        ratAdd_eq, isNegB, isPosB]
    | posInf => simp [leftCond, compareValues, toNumber, h, JSNum.isNaN, jsSub, jsNeg, jsAdd,
        isNegB, isPosB]
    | negInf => simp [leftCond, compareValues, toNumber, h, JSNum.isNaN, jsSub, jsNeg, jsAdd,
        isNegB, isPosB]
    | nan =>
      have hs : ∀ cs : List Char, lexCmp cs cs = 0 := by
        intro cs; induction cs with
        | nil => rfl
        | cons c cs ih => simp [lexCmp, ih]
      simp [leftCond, compareValues, toNumber, h, JSNum.isNaN, isNegB, isPosB, localeCmp, hs]

/-- Comparing a value with itself never lands in the right bucket. -/
theorem rightCond_self (ord : SortOrder) (v : JSElem) : rightCond ord v v = false := by
  cases ord <;> cases v with
  | num n => cases n <;> simp [rightCond, compareValues, toNumber, JSNum.isNaN, jsSub, jsNeg,
      jsAdd, ratAdd_eq, isNegB, isPosB, numToString, elemToString, localeCmp, lexCmp]
  | str s =>
    cases h : toNumberStr s with
    | fin q => simp [rightCond, compareValues, toNumber, h, JSNum.isNaN, jsSub, jsNeg, jsAdd,
        ratAdd_eq, isNegB, isPosB]
    | posInf => simp [rightCond, compareValues, toNumber, h, JSNum.isNaN, jsSub, jsNeg, jsAdd,
        isNegB, isPosB]
    | negInf => simp [rightCond, compareValues, toNumber, h, JSNum.isNaN, jsSub, jsNeg, jsAdd,
        isNegB, isPosB]
    | nan =>
      have hs : ∀ cs : List Char, lexCmp cs cs = 0 := by
        intro cs; induction cs with
        | nil => rfl
        | cons c cs ih => simp [lexCmp, ih]
      simp [rightCond, compareValues, toNumber, h, JSNum.isNaN, isNegB, isPosB, localeCmp, hs]

/-- The quicksort kernel of the source: pivot at the middle index, one pass
splitting into left, equal and right buckets in input order, recursion on
left and right, concatenation left ++ equal ++ right. -/
def qsortRec (ord : SortOrder) (l : List JSElem) : List JSElem :=
  if h : l.length ≤ 1 then l
  else
    let pivot := l.get ⟨l.length / 2, Nat.div_lt_self (by omega) (by omega)⟩
    qsortRec ord (l.filter (fun x => leftCond ord x pivot)) ++
      l.filter (fun x => !leftCond ord x pivot && !rightCond ord x pivot) ++
      qsortRec ord (l.filter (fun x => rightCond ord x pivot))
termination_by l.length
decreasing_by
  · exact length_filter_lt_of_mem (l.get_mem _ _) (leftCond_self ord _)
  · exact length_filter_lt_of_mem (l.get_mem _ _) (rightCond_self ord _)

/-- Argument universe for the public operations: what the validation layer
can be handed.  Function values are opaque callables distinguished by an id;
array arguments hold element lists (equality between two distinct array
literals is reference equality in the source, never relevant here since the
operations only compare element values). -/
inductive JSArg where
  | arrv (l : List JSElem)
  | elemv (e : JSElem)
  | boolv (b : Bool)
  | nullv
  | undefv
  | funcv (id : Nat)
deriving DecidableEq, Repr

/-- Truth of Array.isArray on an argument. -/
def argIsArray : JSArg → Bool
  | .arrv _ => true
  | _ => false

/-- Truth of typeof value === number. -/
def argIsNumber : JSArg → Bool
  | .elemv (.num _) => true
  | _ => false

/-- Truth of typeof value === string. -/
def argIsString : JSArg → Bool
  | .elemv (.str _) => true
  | _ => false

/-- Truth of typeof value === function. -/
def argIsFunction : JSArg → Bool
  | .funcv _ => true
  | _ => false

/-- Models ToNumber on an argument (arrays coerce through their join). -/
def argToNumber : JSArg → JSNum
  | .elemv e => toNumber e
  | .boolv b => .fin (if b then 1 else 0)
  | .nullv => .fin 0
  | .undefv => .nan
  | .arrv l => toNumberStr (String.intercalate "," (l.map elemToString))
  | .funcv _ => .nan

/-- The predicate of checkNullOrEmpty from the source: value is not
null/undefined, not an empty array, and not a whitespace-only string. -/
def nullOrEmptyOk : JSArg → Bool
  | .nullv => false
  | .undefv => false
  | .arrv l => !l.isEmpty
  | .elemv (.str s) => s.data.any (fun c => !isWsChar c)
  | _ => true

/-- Validation chain instance: the subject value and the ordered failure
list (the source stores Error objects; the model keeps their messages). -/
structure VChain where
  value : JSArg
  errors : List String
deriving DecidableEq, Repr

namespace VChain

/-- Static constructor startsFor: fresh chain with no failures. -/
def startsFor (v : JSArg) : VChain := ⟨v, []⟩

/-- Core check: a false condition appends the message, the chain flows on. -/
def check (s : VChain) (condition : Bool) (message : String) : VChain :=
  if condition then s else ⟨s.value, s.errors ++ [message]⟩

/-- Terminal validate: throws the first recorded failure, if any. -/
def validate (s : VChain) : Except String Unit :=
  match s.errors with
  | [] => .ok ()
  | e :: _ => .error e

/-- Named check: null, undefined, or empty (arrays and blank strings). -/
def checkNullOrEmpty (s : VChain) (message : String) : VChain :=
  s.check (nullOrEmptyOk s.value) message

/-- Named check: the value is a number. -/
def checkNumber (s : VChain) (message : String) : VChain :=
  s.check (argIsNumber s.value) message

/-- Named check: the value is a string. -/
def checkString (s : VChain) (message : String) : VChain :=
  s.check (argIsString s.value) message

/-- Named check: the value is an array. -/
def checkArray (s : VChain) (message : String) : VChain :=
  s.check (argIsArray s.value) message

/-- Named check: the JS comparison value > 0 holds. -/
def checkPositiveNumber (s : VChain) (message : String) : VChain :=
  s.check (isPosB (argToNumber s.value)) message

/-- Named check from the source, verbatim including its equality test
against the string literal function:
this.value === function-string or typeof this.value === function. -/
def checkFunction (s : VChain) (message : String) : VChain :=
  s.check (decide (s.value = .elemv (.str "function")) || argIsFunction s.value) message

end VChain

/-- Runs a list of precomputed check calls against a chain (the fluent
chain of check invocations, each with its already-evaluated condition). -/
def runChecks (cs : List (Bool × String)) (s : VChain) : VChain :=
  cs.foldl (fun s c => s.check c.1 c.2) s

/-- Truth of the includes test of the order flag against asc and desc. -/
def ordFlagOk (o : JSArg) : Bool :=
  decide (o = .elemv (.str "asc")) || decide (o = .elemv (.str "desc"))

/-- The order flag as a direction, meaningful once ordFlagOk has passed. -/
def argOrder (o : JSArg) : SortOrder :=
  if o = .elemv (.str "desc") then .desc else .asc

/-- The order-flag validation shared by all four sort entry points. -/
def orderValidation (o : JSArg) : Except String Unit :=
  ((VChain.startsFor o).check (ordFlagOk o)
    "Order must be \x27asc\x27 or \x27desc\x27.").validate

/-- The array-argument validation of the standalone sorts: checkArray then
checkNullOrEmpty, surfacing the first failure. -/
def sortArrValidation (a : JSArg) : Except String Unit :=
  (((VChain.startsFor a).checkArray "Provided array is invalid.").checkNullOrEmpty
    "Provided array is null or empty.").validate

/-- Model of the standalone bubbleSort(array, order): array validation,
order validation, then the bubble kernel on the array contents. -/
def bubbleSortOp (a o : JSArg) : Except String (List JSElem) :=
  match sortArrValidation a with
  | .error e => .error e
  | .ok _ =>
    match orderValidation o with
    | .error e => .error e
    | .ok _ =>
      match a with
      | .arrv l => .ok (bubbleRun (argOrder o) l)
      | _ => .ok []

/-- Model of the standalone quickSort(array, order): same validations, then
the quicksort kernel written back as the array contents. -/
def quickSortOp (a o : JSArg) : Except String (List JSElem) :=
  match sortArrValidation a with
  | .error e => .error e
  | .ok _ =>
    match orderValidation o with
    | .error e => .error e
    | .ok _ =>
      match a with
      | .arrv l => .ok (qsortRec (argOrder o) l)
      | _ => .ok []

/-- Model of bubbleSortMixedArray(order) over the module-level array: only
the order flag is validated, then the bubble kernel runs on the array. -/
def bubbleSortMixedArrayOp (l : List JSElem) (o : JSArg) : Except String (List JSElem) :=
  match orderValidation o with
  | .error e => .error e
  | .ok _ => .ok (bubbleRun (argOrder o) l)

/-- Model of quickSortMixedArray(order) over the module-level array: only
the order flag is validated, then the quicksort kernel runs on the array. -/
def quickSortMixedArrayOp (l : List JSElem) (o : JSArg) : Except String (List JSElem) :=
  match orderValidation o with
  | .error e => .error e
  | .ok _ => .ok (qsortRec (argOrder o) l)

/-- Truncation toward zero of a rational (ToIntegerOrInfinity on a finite). -/
def jsTruncQ (q : ℚ) : Int := if q < 0 then ⌈q⌉ else ⌊q⌋

/-- Result of ToIntegerOrInfinity: an integer or a signed infinity. -/
inductive JSInt where
  | int (i : Int)
  | pInf
  | nInf
deriving DecidableEq, Repr

/-- ToIntegerOrInfinity on a JS number (NaN becomes 0). -/
def toIntOrInf : JSNum → JSInt
  | .nan => .int 0
  | .fin q => .int (jsTruncQ q)
  | .posInf => .pInf
  | .negInf => .nInf

/-- Remaining contents of an array after Array.prototype.splice(start,
deleteCount) with no insertions, per ECMA-262: relative start clamped into
the array, delete count clamped between 0 and the room after start. -/
def spliceRemaining (l : List JSElem) (start dcount : JSNum) : List JSElem :=
  let len : Int := l.length
  let s : Int :=
    match toIntOrInf start with
    | .nInf => 0
    | .pInf => len
    | .int i => if i < 0 then max (len + i) 0 else min i len
  let dc : Int :=
    match toIntOrInf dcount with
    | .nInf => 0
    | .pInf => len - s
    | .int i => min (max i 0) (len - s)
  l.take s.toNat ++ l.drop (s + dc).toNat

/-- The property names every plain object literal inherits from
Object.prototype (ECMA-262 20.1.3 together with the Annex B.2.2 legacy
accessors). Looking any of them up on the handler table yields a function,
or Object.prototype itself for the proto accessor; each of those values is
truthy. -/
def objectProtoNames : List String :=
  ["constructor", "hasOwnProperty", "isPrototypeOf", "propertyIsEnumerable",
    "toLocaleString", "toString", "valueOf", "__defineGetter__",
    "__defineSetter__", "__lookupGetter__", "__lookupSetter__", "__proto__"]

/-- The property key a bracket lookup coerces its index to (ToPropertyKey,
which is ToString on the modelled argument shapes). The source text a
function stringifies to always contains a space or punctuation, so it never
equals a bare handler or prototype key; the model renders it as a
space-bearing marker. -/
def argPropKey : JSArg → String
  | .elemv e => elemToString e
  | .boolv b => if b then "true" else "false"
  | .nullv => "null"
  | .undefv => "undefined"
  | .arrv l => String.intercalate "," (l.map elemToString)
  | .funcv id => "function " ++ toString id

/-- Truth of the position-handler lookup POSITION_HANDLERS[position]: the
table is a plain object literal whose own keys are start and end, but a
bracket lookup continues along the prototype chain, so every member name of
Object.prototype is also truthy there; any other key yields undefined,
which is falsy. -/
def posFlagOk (p : JSArg) : Bool :=
  decide (argPropKey p = "start") || decide (argPropKey p = "end")
    || objectProtoNames.contains (argPropKey p)

/-- Model of removeByCount(array, count, position): the two validation
chains of the source, then the call POSITION_HANDLERS[position](array,
count). The own keys start and end select the splices. An inherited
Object.prototype name instead invokes that prototype member, which returns
normally and never touches the array, with three exceptions that throw a
TypeError: the proto accessor yields Object.prototype, which is not
callable, and the two define-accessor members require a callable second
argument while the count is a number once its checks passed (engine-varying
TypeError messages are recorded as the bare string TypeError). Returns the
remaining contents of the caller array. -/
def removeByCountOp (a cnt pos : JSArg) : Except String (List JSElem) :=
  match (((VChain.startsFor a).checkArray "Provided array is invalid.").checkNullOrEmpty
      "Array is empty.").validate with
  | .error e => .error e
  | .ok _ =>
    match (((((VChain.startsFor cnt).checkNullOrEmpty "Count is required.").checkNumber
        "Provided count invalid.").checkPositiveNumber
        "Provided count must be positive.").check (posFlagOk pos)
        "Invalid position specified. Use \x27start\x27 or \x27end\x27.").validate with
    | .error e => .error e
    | .ok _ =>
      match a, cnt with
      | .arrv l, .elemv (.num n) =>
        if argPropKey pos = "start" then .ok (spliceRemaining l (.fin 0) n)
        else if argPropKey pos = "end" then .ok (spliceRemaining l (jsNeg n) n)
        else if argPropKey pos = "__proto__" ∨ argPropKey pos = "__defineGetter__"
            ∨ argPropKey pos = "__defineSetter__" then .error "TypeError"
        else .ok l
      | _, _ => .ok []

/-- Values argument of addUniqueValues: a single element or an array of
elements (the shapes performActionToArrayOrValue distinguishes). -/
inductive ValuesArg where
  | one (e : JSElem)
  | many (l : List JSElem)
deriving DecidableEq, Repr

/-- The values argument as seen by the validation layer. -/
def ValuesArg.toArg : ValuesArg → JSArg
  | .one e => .elemv e
  | .many l => .arrv l

/-- Truth of array.includes(v) (SameValueZero coincides with structural
equality on the modelled elements). -/
def jsIncludes (l : List JSElem) (v : JSElem) : Bool :=
  l.any (fun x => decide (x = v))

/-- Body of addValueIfNotIncluded: skip a present value, otherwise push at
the end, unshift at the start, and silently do nothing for any other
position value (the source has no else branch). -/
def addOneValue (pos : JSArg) (acc : List JSElem) (v : JSElem) : List JSElem :=
  if jsIncludes acc v then acc
  else if pos = .elemv (.str "end") then acc ++ [v]
  else if pos = .elemv (.str "start") then v :: acc
  else acc

/-- Model of addUniqueValues(array, values, position): array and values
validations of the source (position is never validated), then the per-value
insertion pass; returns the final contents of the caller array. -/
def addUniqueValuesOp (l : List JSElem) (values : ValuesArg) (pos : JSArg) :
    Except String (List JSElem) :=
  match ((VChain.startsFor (.arrv l)).checkArray "Provided array is invalid.").validate with
  | .error e => .error e
  | .ok _ =>
    match ((VChain.startsFor values.toArg).checkNullOrEmpty
        "Provided values is null or empty.").validate with
    | .error e => .error e
    | .ok _ =>
      .ok (match values with
        | .one e => addOneValue pos l e
        | .many vs => vs.foldl (addOneValue pos) l)

/-- Truth of typeof elem === number. -/
def isNumElem : JSElem → Bool
  | .num _ => true
  | .str _ => false

/-- Truth of typeof elem === string. -/
def isStrElem : JSElem → Bool
  | .num _ => false
  | .str _ => true

/-- Elements of number type, as selected by filterNumbers. -/
def filterNumbers (l : List JSElem) : List JSElem :=
  l.filter isNumElem

/-- The numeric values of the number-typed elements, in order. -/
def numericValues (l : List JSElem) : List JSNum :=
  l.filterMap (fun x => match x with | .num n => some n | .str _ => none)

/-- Aggregate statistics record of calculateStats / getStatsFromArray. -/
structure JSStats where
  max : JSNum
  min : JSNum
  sum : JSNum
  average : JSNum
deriving DecidableEq, Repr

/-- Model of filterByCondition(array, condition) and its global-array twin
filterElementsByCondition at the filterNumbers call site. The condition
argument there is the number-typeof arrow function, a function value, so
its own chain (checkNullOrEmpty then checkFunction) records no failure; the
array argument must then pass checkNullOrEmpty with the message Array is
empty., and finally the filter keeps the number-typed elements. A non-array
value surviving the emptiness check has no filter method, recorded as a
TypeError. -/
def filterNumbersOp (a : JSArg) : Except String (List JSElem) :=
  match (((VChain.startsFor (.funcv 0)).checkNullOrEmpty
      "Condition is required.").checkFunction
      "Provided argument is not a function.").validate with
  | .error e => .error e
  | .ok _ =>
    match ((VChain.startsFor a).checkNullOrEmpty "Array is empty.").validate with
    | .error e => .error e
    | .ok _ =>
      match a with
      | .arrv l => .ok (filterNumbers l)
      | _ => .error "TypeError"

/-- Model of calculateStats(array) / getStatsFromArray(): the filterNumbers
call (whose filterByCondition core validates the condition and raises the
Array is empty. failure on an empty array), then Math.max spread, Math.min
spread, reduce with plus from 0, and the sum divided by the count, all over
the filtered number-typed elements. -/
def calculateStats (l : List JSElem) : Except String JSStats :=
  match filterNumbersOp (.arrv l) with
  | .error e => .error e
  | .ok numberElems =>
    let numbers := numericValues numberElems
    let sum := numbers.foldl jsAdd (.fin 0)
    .ok { max := numbers.foldl jsMax2 .negInf
          min := numbers.foldl jsMin2 .posInf
          sum := sum
          average := jsDiv sum (.fin numbers.length) }

/-- Errors accumulated by a run of check calls: the prior errors followed by
the messages of exactly the failed checks, in order; the subject value is
retained. -/
theorem runChecks_spec (cs : List (Bool × String)) (s : VChain) :
    (runChecks cs s).errors
        = s.errors ++ (cs.filter (fun c => !c.1)).map (fun c => c.2)
      ∧ (runChecks cs s).value = s.value := by
  induction cs generalizing s with
  | nil => simp [runChecks]
  | cons c cs ih =>
    obtain ⟨c1, c2⟩ := c
    have hstep : runChecks ((c1, c2) :: cs) s = runChecks cs (VChain.check s c1 c2) := rfl
    rw [hstep]
    rcases ih (VChain.check s c1 c2) with ⟨h1, h2⟩
    cases c1
    · refine ⟨?_, ?_⟩
      · rw [h1]; simp [VChain.check]
      · rw [h2]; simp [VChain.check]
    · refine ⟨?_, ?_⟩
      · rw [h1]; simp [VChain.check]
      · rw [h2]; simp [VChain.check]

/-- C4: for every validation chain and sequence of check calls, every check
is recorded (a failed check does not stop later checks from recording): the
error list is exactly the messages of the failed checks in order, the
subject is unchanged, and the terminal validate raises the first recorded
failure message when at least one check failed and returns normally when
none failed. -/
theorem C4_theorem (v : JSArg) (cs : List (Bool × String)) :
    (runChecks cs (VChain.startsFor v)).errors
        = (cs.filter (fun c => !c.1)).map (fun c => c.2)
      ∧ (runChecks cs (VChain.startsFor v)).value = v
      ∧ VChain.validate (runChecks cs (VChain.startsFor v))
          = (match (cs.filter (fun c => !c.1)).map (fun c => c.2) with
             | [] => Except.ok ()
             | m :: _ => Except.error m) := by
  rcases runChecks_spec cs (VChain.startsFor v) with ⟨h1, h2⟩
  refine ⟨?_, ?_, ?_⟩
  · simpa [VChain.startsFor] using h1
  · simpa [VChain.startsFor] using h2
  · rw [VChain.validate, h1]
    simp [VChain.startsFor]

/-- C7: the checkFunction predicate of the source accepts the plain string
"function" (because of the strict-equality comparison against the literal
"function"), recording no failure even though that value is not callable;
this contradicts the documented behaviour of the check. -/
theorem C7_theorem :
    ((VChain.startsFor (.elemv (.str "function"))).checkFunction
        "Provided value is not a valid function.").errors = []
      ∧ argIsFunction (.elemv (.str "function")) = false := by
  decide

/-- A list with no number-typed element yields no numeric values. -/
theorem numericValues_eq_nil :
    ∀ l : List JSElem, (∀ x ∈ l, isNumElem x = false) → numericValues l = [] := by
  intro l
  induction l with
  | nil => exact fun _ => rfl
  | cons a t ih =>
    intro h
    have ha := h a (List.mem_cons_self a t)
    have ht := ih (fun x hx => h x (List.mem_cons_of_mem a hx))
    cases a with
    | num n => simp [isNumElem] at ha
    | str s => simpa [numericValues, List.filterMap_cons] using ht

/-- The filterNumbers call on an actual array: the condition chain passes
(the condition is a function value), the array chain raises Array is empty.
exactly on the empty array, and otherwise the number-typed elements come
back. -/
theorem filterNumbersOp_arr (l : List JSElem) :
    filterNumbersOp (.arrv l)
      = if l.isEmpty then .error "Array is empty." else .ok (filterNumbers l) := by
  cases l with
  | nil => rfl
  | cons a t => rfl

/-- C6 (amended): on a nonempty sequence with no number-typed element the
operation returns the record max = -Infinity, min = +Infinity, sum = 0 and
average = NaN (only the average is NaN; the sum is the plain number 0 and
the extrema are the infinities), while the empty sequence instead raises
the Array is empty. failure inside filterNumbers before any arithmetic. -/
theorem C6_theorem (l : List JSElem) (h : ∀ x ∈ l, isNumElem x = false) :
    calculateStats l
      = if l.isEmpty then .error "Array is empty."
        else .ok ⟨.negInf, .posInf, .fin 0, .nan⟩ := by
  have hsub : ∀ x ∈ filterNumbers l, isNumElem x = false :=
    fun x hx => h x ((List.filter_sublist l).subset hx)
  have hnum : numericValues (filterNumbers l) = [] := numericValues_eq_nil _ hsub
  unfold calculateStats
  rw [filterNumbersOp_arr l]
  cases he : l.isEmpty with
  | true => rfl
  | false => simp [hnum, jsDiv]

/-- C6 witness: the one-string sequence instantiates the amended claim and
returns the record through the nonempty branch. -/
theorem C6_witness :
    calculateStats [.str "x"]
      = if ([JSElem.str "x"] : List JSElem).isEmpty then .error "Array is empty."
        else .ok ⟨.negInf, .posInf, .fin 0, .nan⟩ :=
  C6_theorem [.str "x"] (by decide)

/-- C6 counterexample to the original claim: with no numeric elements in a
nonempty sequence the operation returns a record whose sum field is the
number 0, which is neither undefined nor NaN. -/
theorem C6_counterexample :
    calculateStats [.str "x"] = .ok ⟨.negInf, .posInf, .fin 0, .nan⟩
      ∧ JSNum.fin 0 ≠ JSNum.nan :=
  ⟨rfl, by decide⟩

/-- C2 (amended): in the fallback case (not both operands numeric-coercible
to non-NaN, not both strings) the comparator returns the lexicographic
comparison of the string form of the NUMERIC COERCION of the first operand
(numA.toString()) against the string form of the second operand, not the
string form of the first operand itself. -/
theorem C2_theorem (a b : JSElem)
    (h1 : ((toNumber a).isNaN || (toNumber b).isNaN) = true)
    (h2 : (isStrElem a && isStrElem b) = false) :
    compareValues a b = .fin (localeCmp (numToString (toNumber a)) (elemToString b)) := by
  have hcond : (!(toNumber a).isNaN && !(toNumber b).isNaN) = false := by
    cases ht : (toNumber a).isNaN <;> cases hu : (toNumber b).isNaN <;> simp_all
  cases a with
  | num na =>
    cases b with
    | num nb => simp [compareValues, hcond]
    | str sb => simp [compareValues, hcond]
  | str sa =>
    cases b with
    | num nb => simp [compareValues, hcond]
    | str sb => simp [isStrElem] at h2

/-- C2 witness: comparing the word apple against the number 10 goes through
the fallback and stringifies the coercion of apple (NaN) against 10. -/
theorem C2_witness :
    compareValues (.str "apple") (.num (.fin 10))
      = .fin (localeCmp (numToString (toNumber (.str "apple")))
          (elemToString (.num (.fin 10)))) :=
  C2_theorem (.str "apple") (.num (.fin 10)) (by decide) (by decide)

/-- C2 counterexample to the original claim: comparing the string AAA with
Infinity returns plus one (it compares NaN against Infinity), while the
lexicographic comparison of the string forms AAA and Infinity is minus one. -/
theorem C2_counterexample :
    compareValues (.str "AAA") (.num .posInf) = .fin 1
      ∧ localeCmp "AAA" (elemToString (.num .posInf)) = -1 := by
  decide

/-- C3 (amended): the standalone sorts raise the invalid-array failure on a
non-array input and the empty-collection failure on an empty array, and all
four sort entry points raise a validation failure for an order flag outside
asc and desc; the two global-array sorts validate only the order flag (see
the counterexample: they do not raise on an empty sequence). -/
theorem C3_theorem :
    (∀ (a o : JSArg), ordFlagOk o = false →
        (∃ e, bubbleSortOp a o = .error e) ∧ (∃ e, quickSortOp a o = .error e)
          ∧ (∀ l, ∃ e, bubbleSortMixedArrayOp l o = .error e)
          ∧ (∀ l, ∃ e, quickSortMixedArrayOp l o = .error e))
      ∧ (∀ o : JSArg,
          bubbleSortOp (.arrv []) o = .error "Provided array is null or empty."
            ∧ quickSortOp (.arrv []) o = .error "Provided array is null or empty.")
      ∧ (∀ (a o : JSArg), argIsArray a = false →
          bubbleSortOp a o = .error "Provided array is invalid."
            ∧ quickSortOp a o = .error "Provided array is invalid.") := by
  have horder : ∀ o : JSArg, ordFlagOk o = false →
      orderValidation o = .error "Order must be \x27asc\x27 or \x27desc\x27." := by
    intro o h
    simp [orderValidation, VChain.check, h, VChain.validate, VChain.startsFor]
  have hbad : ∀ a : JSArg, argIsArray a = false →
      sortArrValidation a = .error "Provided array is invalid." := by
    intro a h
    cases hn : nullOrEmptyOk a <;>
      simp [sortArrValidation, VChain.checkArray, VChain.checkNullOrEmpty, VChain.check,
        VChain.validate, VChain.startsFor, h, hn]
  refine ⟨?_, ?_, ?_⟩
  · intro a o h
    cases hv : sortArrValidation a with
    | error e =>
      exact ⟨⟨e, by simp [bubbleSortOp, hv]⟩, ⟨e, by simp [quickSortOp, hv]⟩,
        fun l => ⟨"Order must be \x27asc\x27 or \x27desc\x27.",
          by simp [bubbleSortMixedArrayOp, horder o h]⟩,
        fun l => ⟨"Order must be \x27asc\x27 or \x27desc\x27.",
          by simp [quickSortMixedArrayOp, horder o h]⟩⟩
    | ok u =>
      exact ⟨⟨"Order must be \x27asc\x27 or \x27desc\x27.",
          by simp [bubbleSortOp, hv, horder o h]⟩,
        ⟨"Order must be \x27asc\x27 or \x27desc\x27.",
          by simp [quickSortOp, hv, horder o h]⟩,
        fun l => ⟨"Order must be \x27asc\x27 or \x27desc\x27.",
          by simp [bubbleSortMixedArrayOp, horder o h]⟩,
        fun l => ⟨"Order must be \x27asc\x27 or \x27desc\x27.",
          by simp [quickSortMixedArrayOp, horder o h]⟩⟩
  · intro o
    exact ⟨rfl, rfl⟩
  · intro a o h
    exact ⟨by simp [bubbleSortOp, hbad a h], by simp [quickSortOp, hbad a h]⟩

/-- C3 witness: concrete instances of the three amended guarantees. -/
theorem C3_witness :
    (∃ e, bubbleSortOp (.arrv [.num (.fin 1)]) (.elemv (.str "up")) = .error e)
      ∧ bubbleSortOp (.arrv []) (.elemv (.str "asc"))
          = .error "Provided array is null or empty."
      ∧ quickSortOp (.elemv (.num (.fin 5))) (.elemv (.str "asc"))
          = .error "Provided array is invalid." :=
  ⟨(C3_theorem.1 (.arrv [.num (.fin 1)]) (.elemv (.str "up")) (by decide)).1,
    (C3_theorem.2.1 (.elemv (.str "asc"))).1,
    (C3_theorem.2.2 (.elemv (.num (.fin 5))) (.elemv (.str "asc")) (by decide)).2⟩

/-- Unfolding lemma for the quicksort kernel on short lists. -/
theorem qsortRec_base (ord : SortOrder) (l : List JSElem) (h : l.length ≤ 1) :
    qsortRec ord l = l := by
  unfold qsortRec
  simp [h]

/-- Unfolding lemma for the quicksort kernel on longer lists. -/
theorem qsortRec_step (ord : SortOrder) (l : List JSElem) (h : ¬ l.length ≤ 1) :
    qsortRec ord l =
      qsortRec ord
          (l.filter (fun x => leftCond ord x
            (l.get ⟨l.length / 2, Nat.div_lt_self (by omega) (by omega)⟩))) ++
        l.filter (fun x => !leftCond ord x
            (l.get ⟨l.length / 2, Nat.div_lt_self (by omega) (by omega)⟩)
          && !rightCond ord x
            (l.get ⟨l.length / 2, Nat.div_lt_self (by omega) (by omega)⟩)) ++
        qsortRec ord (l.filter (fun x => rightCond ord x
          (l.get ⟨l.length / 2, Nat.div_lt_self (by omega) (by omega)⟩))) := by
  conv_lhs => rw [qsortRec]
  simp [h]

/-- C3 counterexample to the original claim: the global-array sort variants
validate only the order flag, so sorting an empty sequence returns normally
instead of raising an empty-collection failure. -/
theorem C3_counterexample :
    bubbleSortMixedArrayOp [] (.elemv (.str "asc")) = .ok []
      ∧ quickSortMixedArrayOp [] (.elemv (.str "asc")) = .ok [] := by
  constructor
  · rfl
  · show Except.ok (qsortRec .asc []) = Except.ok []
    rw [qsortRec_base .asc [] (by decide)]

/-- Splicing from the start with a count at least the length empties the
array (the delete count clamps to the available length). -/
theorem spliceRemaining_start_all (l : List JSElem) (q : ℚ) (hq : (l.length : ℚ) ≤ q) :
    spliceRemaining l (.fin 0) (.fin q) = [] := by
  have hq0 : (0 : ℚ) ≤ q := le_trans (by positivity) hq
  have hfl : (l.length : Int) ≤ ⌊q⌋ := Int.le_floor.mpr (by exact_mod_cast hq)
  have ht0 : jsTruncQ 0 = 0 := by simp [jsTruncQ]
  have htq : jsTruncQ q = ⌊q⌋ := by simp [jsTruncQ, not_lt.mpr hq0]
  simp only [spliceRemaining, toIntOrInf, ht0, htq]
  have hs : (if (0 : Int) < 0 then max ((l.length : Int) + 0) 0
      else min 0 (l.length : Int)) = 0 := by
    have : (0 : Int) ≤ (l.length : Int) := by positivity
    simp [min_eq_left this]
  rw [hs]
  have hdc : min (max ⌊q⌋ 0) ((l.length : Int) - 0) = (l.length : Int) := by omega
  rw [hdc]
  simp

/-- Splicing from the end (negative start) with a count at least the length
also empties the array: the relative start clamps to 0 and the delete count
clamps to the length. -/
theorem spliceRemaining_end_all (l : List JSElem) (q : ℚ) (hl : 1 ≤ l.length)
    (hq : (l.length : ℚ) ≤ q) :
    spliceRemaining l (jsNeg (.fin q)) (.fin q) = [] := by
  have hq0 : (0 : ℚ) < q := by
    have h1 : (1 : ℚ) ≤ (l.length : ℚ) := by exact_mod_cast hl
    linarith
  have hfl : (l.length : Int) ≤ ⌊q⌋ := Int.le_floor.mpr (by exact_mod_cast hq)
  have hfl1 : (1 : Int) ≤ ⌊q⌋ := le_trans (by exact_mod_cast hl) hfl
  have htq : jsTruncQ q = ⌊q⌋ := by simp [jsTruncQ, not_lt.mpr (le_of_lt hq0)]
  have htn : jsTruncQ (-q) = -⌊q⌋ := by
    simp [jsTruncQ, neg_lt_zero.mpr hq0, Int.ceil_neg]
  simp only [spliceRemaining, jsNeg, toIntOrInf, htq, htn]
  have hs : (if -⌊q⌋ < (0 : Int) then max ((l.length : Int) + -⌊q⌋) 0
      else min (-⌊q⌋) (l.length : Int)) = 0 := by
    have hneg : -⌊q⌋ < (0 : Int) := by omega
    rw [if_pos hneg]
    omega
  rw [hs]
  have hdc : min (max ⌊q⌋ 0) ((l.length : Int) - 0) = (l.length : Int) := by omega
  rw [hdc]
  simp

/-- The array is nonempty so its isEmpty test is false. -/
theorem isEmpty_false_of_ne_nil {l : List JSElem} (h : l ≠ []) : l.isEmpty = false := by
  cases l with
  | nil => exact absurd rfl h
  | cons a t => rfl

/-- C8: removing more elements than exist (count strictly above the length)
raises no error at either position and leaves the sequence empty. -/
theorem C8_theorem (l : List JSElem) (q : ℚ) (h1 : l ≠ []) (h2 : (l.length : ℚ) < q) :
    removeByCountOp (.arrv l) (.elemv (.num (.fin q))) (.elemv (.str "start")) = .ok []
      ∧ removeByCountOp (.arrv l) (.elemv (.num (.fin q))) (.elemv (.str "end")) = .ok [] := by
  have hl1 : 1 ≤ l.length := List.length_pos.mpr h1
  have hq0 : (0 : ℚ) < q := by
    have : (0 : ℚ) ≤ (l.length : ℚ) := by positivity
    linarith
  have hve : l.isEmpty = false := isEmpty_false_of_ne_nil h1
  constructor
  · simp only [removeByCountOp, VChain.startsFor, VChain.checkArray, VChain.checkNullOrEmpty,
      VChain.checkNumber, VChain.checkPositiveNumber, VChain.check, VChain.validate,
      argIsArray, argIsNumber, argToNumber, toNumber, nullOrEmptyOk, posFlagOk, isPosB, hve,
      argPropKey, elemToString, objectProtoNames]
    simp [hq0, h1, spliceRemaining_start_all l q (le_of_lt h2)]
  · simp only [removeByCountOp, VChain.startsFor, VChain.checkArray, VChain.checkNullOrEmpty,
      VChain.checkNumber, VChain.checkPositiveNumber, VChain.check, VChain.validate,
      argIsArray, argIsNumber, argToNumber, toNumber, nullOrEmptyOk, posFlagOk, isPosB, hve,
      argPropKey, elemToString, objectProtoNames]
    simp [hq0, h1, spliceRemaining_end_all l q hl1 (le_of_lt h2)]

/-- C8 witness: removing five elements from a one-element array at either
position succeeds and empties it. -/
theorem C8_witness :
    removeByCountOp (.arrv [.num (.fin 1)]) (.elemv (.num (.fin 5))) (.elemv (.str "start"))
        = .ok []
      ∧ removeByCountOp (.arrv [.num (.fin 1)]) (.elemv (.num (.fin 5)))
          (.elemv (.str "end")) = .ok [] :=
  C8_theorem [.num (.fin 1)] 5 (by decide) (by norm_num)

/-- A check that fails always makes the terminal validate raise some error. -/
theorem validate_error_of_failed_check (s : VChain) (m : String) :
    ∃ e, (s.check false m).validate = .error e := by
  cases h : s.errors with
  | nil => exact ⟨m, by simp [VChain.check, VChain.validate, h]⟩
  | cons x t => exact ⟨x, by simp [VChain.check, VChain.validate, h]⟩

/-- A position other than the strings start and end makes the per-value
insertion a no-op (the source's insertion helper has no else branch). -/
theorem addOneValue_invalid_pos (pos : JSArg) (h1 : pos ≠ .elemv (.str "end"))
    (h2 : pos ≠ .elemv (.str "start"))
    (acc : List JSElem) (v : JSElem) : addOneValue pos acc v = acc := by
  unfold addOneValue
  by_cases hin : jsIncludes acc v = true
  · simp [hin]
  · simp [hin, h1, h2]

/-- C9 (amended): the remove operation's position test is the truthiness of
the handler-table lookup, which reaches Object.prototype: a position whose
key is outside start, end and the inherited Object.prototype names raises a
validation failure before mutating (the invalid-enum message once the count
checks pass), while an inherited name such as toString passes the test and
its call leaves the sequence unchanged with no error raised; the add-values
operation never validates the position at all: for any position other than
start and end it raises no error and adds the value nowhere, returning the
sequence unchanged. -/
theorem C9_theorem :
    (∀ (l : List JSElem) (values : ValuesArg) (pos : JSArg),
        pos ≠ .elemv (.str "start") → pos ≠ .elemv (.str "end") →
        nullOrEmptyOk values.toArg = true →
        addUniqueValuesOp l values pos = .ok l)
      ∧ (∀ (a cnt pos : JSArg), posFlagOk pos = false →
          ∃ e, removeByCountOp a cnt pos = .error e)
      ∧ (∀ (l : List JSElem) (q : ℚ) (pos : JSArg), l ≠ [] → 0 < q →
          posFlagOk pos = false →
          removeByCountOp (.arrv l) (.elemv (.num (.fin q))) pos
            = .error "Invalid position specified. Use \x27start\x27 or \x27end\x27.")
      ∧ (∀ (l : List JSElem) (q : ℚ), l ≠ [] → 0 < q →
          removeByCountOp (.arrv l) (.elemv (.num (.fin q)))
            (.elemv (.str "toString")) = .ok l) := by
  refine ⟨?_, ?_, ?_, ?_⟩
  · intro l values pos hp1 hp2 hval
    have hnoop : ∀ vs : List JSElem, vs.foldl (addOneValue pos) l = l := by
      intro vs
      induction vs with
      | nil => rfl
      | cons v vs ih =>
        rw [List.foldl_cons, addOneValue_invalid_pos pos hp2 hp1 l v]
        exact ih
    cases values with
    | one e =>
      simp only [ValuesArg.toArg] at hval
      simp [addUniqueValuesOp, VChain.startsFor, VChain.checkArray, VChain.checkNullOrEmpty,
        VChain.check, VChain.validate, argIsArray, ValuesArg.toArg, hval,
        addOneValue_invalid_pos pos hp2 hp1]
    | many vs =>
      simp only [ValuesArg.toArg] at hval
      simp [addUniqueValuesOp, VChain.startsFor, VChain.checkArray, VChain.checkNullOrEmpty,
        VChain.check, VChain.validate, argIsArray, ValuesArg.toArg, hval, hnoop vs]
  · intro a cnt pos hpos
    cases hv : (((VChain.startsFor a).checkArray "Provided array is invalid.").checkNullOrEmpty
        "Array is empty.").validate with
    | error e => exact ⟨e, by simp [removeByCountOp, hv]⟩
    | ok u =>
      obtain ⟨e, he⟩ := validate_error_of_failed_check
        ((((VChain.startsFor cnt).checkNullOrEmpty "Count is required.").checkNumber
          "Provided count invalid.").checkPositiveNumber "Provided count must be positive.") 
        "Invalid position specified. Use \x27start\x27 or \x27end\x27."
      refine ⟨e, ?_⟩
      simp only [removeByCountOp, hv]
      have hc : (((((VChain.startsFor cnt).checkNullOrEmpty
            "Count is required.").checkNumber "Provided count invalid.").checkPositiveNumber
            "Provided count must be positive.").check (posFlagOk pos)
            "Invalid position specified. Use \x27start\x27 or \x27end\x27.").validate
          = .error e := by rw [hpos]; exact he
      rw [hc]
  · intro l q pos h1 hq hpos
    have hve : l.isEmpty = false := isEmpty_false_of_ne_nil h1
    simp [removeByCountOp, VChain.startsFor, VChain.checkArray, VChain.checkNullOrEmpty,
      VChain.checkNumber, VChain.checkPositiveNumber, VChain.check, VChain.validate,
      argIsArray, argIsNumber, argToNumber, toNumber, nullOrEmptyOk, isPosB, hve, hq, hpos]
  · intro l q h1 hq
    have hve : l.isEmpty = false := isEmpty_false_of_ne_nil h1
    simp [removeByCountOp, VChain.startsFor, VChain.checkArray, VChain.checkNullOrEmpty,
      VChain.checkNumber, VChain.checkPositiveNumber, VChain.check, VChain.validate,
      argIsArray, argIsNumber, argToNumber, toNumber, nullOrEmptyOk, isPosB, hve, hq,
      posFlagOk, argPropKey, elemToString, objectProtoNames]

/-- C9 witness: the middle position is rejected by remove-by-count but
silently tolerated (with no insertion) by the add-values operation, while
the inherited toString key passes the remove validation and its handler
call leaves the array untouched with no error. -/
theorem C9_witness :
    addUniqueValuesOp [.num (.fin 1)] (.one (.num (.fin 2))) (.elemv (.str "middle"))
        = .ok [.num (.fin 1)]
      ∧ removeByCountOp (.arrv [.num (.fin 1)]) (.elemv (.num (.fin 2)))
          (.elemv (.str "middle"))
          = .error "Invalid position specified. Use \x27start\x27 or \x27end\x27."
      ∧ removeByCountOp (.arrv [.num (.fin 1)]) (.elemv (.num (.fin 2)))
          (.elemv (.str "toString")) = .ok [.num (.fin 1)] :=
  ⟨(C9_theorem.1 [.num (.fin 1)] (.one (.num (.fin 2))) (.elemv (.str "middle"))
      (by decide) (by decide) (by decide)),
    (C9_theorem.2.2.1 [.num (.fin 1)] 2 (.elemv (.str "middle")) (by decide) (by norm_num)
      (by decide)),
    (C9_theorem.2.2.2 [.num (.fin 1)] 2 (by decide) (by norm_num))⟩

/-- C9 counterexample to the original claim: the add-values operation with
an invalid position raises no invalid-enum failure at all; it returns
normally with the sequence unchanged. -/
theorem C9_counterexample :
    addUniqueValuesOp [.num (.fin 1)] (.one (.num (.fin 2))) (.elemv (.str "middle"))
      = .ok [.num (.fin 1)] := rfl

/-- A compare-and-swap whose right position is out of range is a no-op. -/
theorem swapAdj_oob (ord : SortOrder) (l : List JSElem) (j : Nat) (h : l.length ≤ j + 1) :
    swapAdj ord l j = l := by
  have h2 : l.get? (j + 1) = none := List.get?_eq_none.mpr (by omega)
  unfold swapAdj
  rw [h2]
  cases hj : l.get? j <;> rfl

/-- An inner loop whose counter is at or past the last pair index leaves
the list unchanged. -/
theorem innerIter_far (ord : SortOrder) :
    ∀ (k j : Nat) (l : List JSElem), l.length ≤ j + 1 → innerIter ord k j l = l := by
  intro k
  induction k with
  | zero => intro j l h; rfl
  | succ k ih =>
    intro j l h
    show innerIter ord k (j + 1) (swapAdj ord l j) = l
    rw [swapAdj_oob ord l j h]
    exact ih (j + 1) l (by omega)

/-- Setting at an offset just past a front segment sets into the tail. -/
theorem set_append_off (front rest : List JSElem) (n : Nat) (x : JSElem) :
    (front ++ rest).set (front.length + n) x = front ++ rest.set n x := by
  rw [List.set_append, if_neg (by omega), Nat.add_sub_cancel_left]

/-- The compare-and-swap at the join of a front segment and two elements. -/
theorem swapAdj_append (ord : SortOrder) (front : List JSElem) (a b : JSElem)
    (t : List JSElem) :
    swapAdj ord (front ++ a :: b :: t) front.length
      = front ++ (if swapCond ord a b then b :: a :: t else a :: b :: t) := by
  have hga : (front ++ a :: b :: t).get? front.length = some a := by
    rw [List.get?_append_right (le_refl _)]
    simp
  have hgb : (front ++ a :: b :: t).get? (front.length + 1) = some b := by
    rw [List.get?_append_right (by omega)]
    rw [show front.length + 1 - front.length = 1 from by omega]
    rfl
  have hs0 : (front ++ a :: b :: t).set front.length b = front ++ b :: b :: t := by
    have hoff := set_append_off front (a :: b :: t) 0 b
    rw [Nat.add_zero] at hoff
    exact hoff
  have hs1 : (front ++ b :: b :: t).set (front.length + 1) a = front ++ b :: a :: t := by
    exact set_append_off front (b :: b :: t) 1 a
  unfold swapAdj
  rw [hga, hgb]
  show (if swapCond ord a b = true
      then ((front ++ a :: b :: t).set front.length b).set (front.length + 1) a
      else front ++ a :: b :: t)
    = front ++ (if swapCond ord a b = true then b :: a :: t else a :: b :: t)
  by_cases hsw : swapCond ord a b = true
  · rw [if_pos hsw, if_pos hsw, hs0, hs1]
  · rw [if_neg hsw, if_neg hsw]

/-- The inner loop starting right after a front segment performs one
bounded bubble pass on the rest. -/
theorem innerIter_append (ord : SortOrder) :
    ∀ (k : Nat) (front rest : List JSElem),
      innerIter ord k front.length (front ++ rest) = front ++ bubblePass ord k rest := by
  intro k
  induction k with
  | zero => intro front rest; rfl
  | succ k ih =>
    intro front rest
    match rest with
    | [] =>
      show innerIter ord k (front.length + 1) (swapAdj ord (front ++ []) front.length)
          = front ++ bubblePass ord (k + 1) []
      rw [swapAdj_oob ord (front ++ []) front.length (by simp)]
      rw [innerIter_far ord k (front.length + 1) (front ++ [])
        (by simp only [List.append_nil]; omega)]
      rfl
    | [a] =>
      show innerIter ord k (front.length + 1) (swapAdj ord (front ++ [a]) front.length)
          = front ++ bubblePass ord (k + 1) [a]
      rw [swapAdj_oob ord (front ++ [a]) front.length (by simp)]
      rw [innerIter_far ord k (front.length + 1) (front ++ [a])
        (by simp only [List.length_append, List.length_cons, List.length_nil]; omega)]
      rfl
    | a :: b :: t =>
      show innerIter ord k (front.length + 1) (swapAdj ord (front ++ a :: b :: t) front.length)
          = front ++ bubblePass ord (k + 1) (a :: b :: t)
      rw [swapAdj_append]
      have hpass : bubblePass ord (k + 1) (a :: b :: t)
          = if swapCond ord a b = true then b :: bubblePass ord k (a :: t)
            else a :: bubblePass ord k (b :: t) := rfl
      by_cases hsw : swapCond ord a b = true
      · have h1 : front ++ b :: a :: t = (front ++ [b]) ++ a :: t := by simp
        have h2 : front.length + 1 = (front ++ [b]).length := by simp
        rw [if_pos hsw, hpass, if_pos hsw, h1, h2, ih (front ++ [b]) (a :: t)]
        simp
      · have h1 : front ++ a :: b :: t = (front ++ [a]) ++ b :: t := by simp
        have h2 : front.length + 1 = (front ++ [a]).length := by simp
        rw [if_neg hsw, hpass, if_neg hsw, h1, h2, ih (front ++ [a]) (b :: t)]
        simp

/-- The inner loop from position 0 is exactly one bounded bubble pass. -/
theorem innerIter_eq_pass (ord : SortOrder) (k : Nat) (l : List JSElem) :
    innerIter ord k 0 l = bubblePass ord k l := by
  have h := innerIter_append ord k [] l
  simpa using h

/-- The outer loop with matching fuel and counter is the structural form. -/
theorem outerIter_eq_spec (ord : SortOrder) (n : Nat) :
    ∀ (k : Nat), ∀ (i : Nat) (l : List JSElem), k + i + 1 = n →
      outerIter ord n k i l = bubbleSpec ord k l := by
  intro k
  induction k with
  | zero => intro i l h; rfl
  | succ k ih =>
    intro i l h
    show outerIter ord n k (i + 1) (innerIter ord (n - i - 1) 0 l) = bubbleSpec ord (k + 1) l
    rw [show n - i - 1 = k + 1 from by omega, innerIter_eq_pass]
    exact ih (i + 1) (bubblePass ord (k + 1) l) (by omega)

/-- The bubble kernel equals its structural form. -/
theorem bubbleRun_eq_spec (ord : SortOrder) (l : List JSElem) :
    bubbleRun ord l = bubbleSpec ord (l.length - 1) l := by
  cases hn : l.length with
  | zero =>
    unfold bubbleRun
    rw [hn]
    rfl
  | succ m =>
    unfold bubbleRun
    rw [hn]
    exact outerIter_eq_spec ord (m + 1) m 0 l (by omega)

/-- One bounded bubble pass permutes the list. -/
theorem bubblePass_perm (ord : SortOrder) :
    ∀ (k : Nat) (l : List JSElem), (bubblePass ord k l).Perm l := by
  intro k
  induction k with
  | zero => intro l; exact List.Perm.refl l
  | succ k ih =>
    intro l
    match l with
    | [] => exact List.Perm.refl _
    | [a] => exact List.Perm.refl _
    | a :: b :: t =>
      show (if swapCond ord a b = true then b :: bubblePass ord k (a :: t)
          else a :: bubblePass ord k (b :: t)).Perm (a :: b :: t)
      by_cases hsw : swapCond ord a b = true
      · rw [if_pos hsw]
        exact ((ih (a :: t)).cons b).trans (List.Perm.swap a b t)
      · rw [if_neg hsw]
        exact (ih (b :: t)).cons a

/-- The structural bubble sort permutes the list. -/
theorem bubbleSpec_perm (ord : SortOrder) :
    ∀ (k : Nat) (l : List JSElem), (bubbleSpec ord k l).Perm l := by
  intro k
  induction k with
  | zero => intro l; exact List.Perm.refl l
  | succ k ih =>
    intro l
    exact (ih (bubblePass ord (k + 1) l)).trans (bubblePass_perm ord (k + 1) l)

/-- The bubble kernel permutes the list. -/
theorem bubbleRun_perm (ord : SortOrder) (l : List JSElem) : (bubbleRun ord l).Perm l := by
  rw [bubbleRun_eq_spec]
  exact bubbleSpec_perm ord (l.length - 1) l

/-- A comparison value is never both negative and positive. -/
theorem not_isNegB_isPosB (c : JSNum) : ¬(isNegB c = true ∧ isPosB c = true) := by
  cases c with
  | fin q =>
    simp only [isNegB, isPosB, decide_eq_true_eq]
    intro h
    linarith [h.1, h.2]
  | posInf => simp [isNegB, isPosB]
  | negInf => simp [isNegB, isPosB]
  | nan => simp [isNegB, isPosB]

/-- No element satisfies the left and the right bucket condition at once. -/
theorem not_leftCond_rightCond (ord : SortOrder) (x p : JSElem) :
    ¬(leftCond ord x p = true ∧ rightCond ord x p = true) := by
  cases ord with
  | asc => exact not_isNegB_isPosB (compareValues x p)
  | desc => exact fun h => not_isNegB_isPosB (compareValues x p) ⟨h.2, h.1⟩

/-- A three-way filter split along mutually exclusive conditions permutes. -/
theorem three_filter_perm (p1 p2 : JSElem → Bool)
    (h : ∀ x, ¬(p1 x = true ∧ p2 x = true)) :
    ∀ l : List JSElem,
      (l.filter p1 ++ (l.filter (fun y => !p1 y && !p2 y) ++ l.filter p2)).Perm l := by
  intro l
  induction l with
  | nil => exact List.Perm.refl _
  | cons x t ih =>
    by_cases hp1 : p1 x = true
    · by_cases hp2 : p2 x = true
      · exact absurd ⟨hp1, hp2⟩ (h x)
      · have hp2f : p2 x = false := eq_false_of_ne_true hp2
        simp only [List.filter_cons, hp1, hp2f, Bool.not_true, Bool.not_false, Bool.false_and,
          Bool.false_eq_true, if_true, if_false, List.cons_append]
        exact ih.cons x
    · have hp1f : p1 x = false := eq_false_of_ne_true hp1
      by_cases hp2 : p2 x = true
      · simp only [List.filter_cons, hp1f, hp2, Bool.not_true, Bool.not_false, Bool.true_and,
          Bool.false_eq_true, if_true, if_false]
        exact ((List.Perm.append_left (t.filter p1) List.perm_middle).trans
          List.perm_middle).trans (ih.cons x)
      · have hp2f : p2 x = false := eq_false_of_ne_true hp2
        simp only [List.filter_cons, hp1f, hp2f, Bool.not_false, Bool.true_and,
          Bool.false_eq_true, if_true, if_false, List.cons_append]
        exact List.perm_middle.trans (ih.cons x)

/-- Unfolding of the quicksort kernel with the pivot named. -/
theorem qsortRec_step2 (ord : SortOrder) (l : List JSElem) (p : JSElem)
    (h : ¬ l.length ≤ 1)
    (hp : ∀ hlt : l.length / 2 < l.length, l.get ⟨l.length / 2, hlt⟩ = p) :
    qsortRec ord l
      = (qsortRec ord (l.filter (fun x => leftCond ord x p)) ++
          l.filter (fun x => !leftCond ord x p && !rightCond ord x p)) ++
        qsortRec ord (l.filter (fun x => rightCond ord x p)) := by
  rw [qsortRec_step ord l h, hp (Nat.div_lt_self (by omega) (by omega))]

/-- The quicksort kernel permutes the list. -/
theorem qsortRec_perm (ord : SortOrder) : ∀ l : List JSElem, (qsortRec ord l).Perm l := by
  have main : ∀ (n : Nat) (l : List JSElem), l.length = n → (qsortRec ord l).Perm l := by
    intro n
    induction n using Nat.strong_induction_on with
    | _ n ih =>
      intro l hl
      by_cases hshort : l.length ≤ 1
      · rw [qsortRec_base ord l hshort]
      · have hlt : l.length / 2 < l.length := Nat.div_lt_self (by omega) (by omega)
        obtain ⟨p, hp⟩ :
            ∃ p, ∀ hlt2 : l.length / 2 < l.length, l.get ⟨l.length / 2, hlt2⟩ = p :=
          ⟨l.get ⟨l.length / 2, hlt⟩, fun _ => rfl⟩
        have hpmem : p ∈ l := by
          rw [← hp hlt]
          exact l.get_mem _ _
        rw [qsortRec_step2 ord l p hshort hp]
        have hL := ih _ (hl ▸ @length_filter_lt_of_mem (fun x => leftCond ord x p) l p
          hpmem (leftCond_self ord p)) _ rfl
        have hR := ih _ (hl ▸ @length_filter_lt_of_mem (fun x => rightCond ord x p) l p
          hpmem (rightCond_self ord p)) _ rfl
        refine List.Perm.trans ?_ (three_filter_perm (fun x => leftCond ord x p)
          (fun x => rightCond ord x p) (fun x => not_leftCond_rightCond ord x p) l)
        rw [List.append_assoc]
        exact List.Perm.append hL (List.Perm.append_left _ hR)
  intro l
  exact main l.length l rfl

/-- C10: both sorting kernels preserve the multiset of elements: for every
order flag and every array, the sequence after sorting is a permutation of
the sequence before sorting, with no hypothesis on the comparator (this
holds even where comparator outcomes are inconsistent). -/
theorem C10_theorem (ord : SortOrder) (l : List JSElem) :
    (bubbleRun ord l).Perm l ∧ (qsortRec ord l).Perm l :=
  ⟨bubbleRun_perm ord l, qsortRec_perm ord l⟩

/-- Numeric key of an element: its coerced value when finite (meaningful on
elements whose coercion is finite; 0 is a dont-care placeholder otherwise). -/
def keyQ (x : JSElem) : ℚ :=
  match toNumber x with
  | .fin q => q
  | _ => 0

/-- Direction-adjusted key: ascending sorts by the key, descending by its
negation. -/
def keyOrd : SortOrder → JSElem → ℚ
  | .asc => keyQ
  | .desc => fun x => -keyQ x

/-- Every element of the list coerces to a finite number. -/
abbrev FiniteElems (l : List JSElem) : Prop := ∀ x ∈ l, (toNumber x).isFin = true

/-- Finite coercions are of the fin shape. -/
theorem isFin_exists {n : JSNum} (h : n.isFin = true) : ∃ q, n = .fin q := by
  cases n with
  | fin q => exact ⟨q, rfl⟩
  | posInf => simp [JSNum.isFin] at h
  | negInf => simp [JSNum.isFin] at h
  | nan => simp [JSNum.isFin] at h

/-- The key of an element with a known finite coercion. -/
theorem keyQ_eq {x : JSElem} {q : ℚ} (h : toNumber x = .fin q) : keyQ x = q := by
  simp [keyQ, h]

/-- On two finite-coercion operands the comparator is the key difference. -/
theorem compareValues_fin (a b : JSElem) (ha : (toNumber a).isFin = true)
    (hb : (toNumber b).isFin = true) :
    compareValues a b = .fin (keyQ a - keyQ b) := by
  obtain ⟨qa, hqa⟩ := isFin_exists ha
  obtain ⟨qb, hqb⟩ := isFin_exists hb
  rw [keyQ_eq hqa, keyQ_eq hqb]
  simp [compareValues, hqa, hqb, JSNum.isNaN, jsSub, jsNeg, jsAdd, ratAdd_eq, sub_eq_add_neg]

/-- The bubble swap condition on finite operands compares the keys. -/
theorem swapCond_char (ord : SortOrder) (a b : JSElem) (ha : (toNumber a).isFin = true)
    (hb : (toNumber b).isFin = true) :
    swapCond ord a b = decide (keyOrd ord b < keyOrd ord a) := by
  cases ord with
  | asc =>
    simp only [swapCond, compareValues_fin a b ha hb, isPosB, keyOrd]
    exact decide_eq_decide.mpr (Rat.num_pos.trans sub_pos)
  | desc =>
    simp only [swapCond, compareValues_fin a b ha hb, isNegB, keyOrd]
    exact decide_eq_decide.mpr (Rat.num_neg.trans
      (sub_neg.trans (by constructor <;> intro h <;> linarith)))

/-- The quicksort left condition on finite operands compares the keys. -/
theorem leftCond_char (ord : SortOrder) (x p : JSElem) (hx : (toNumber x).isFin = true)
    (hp : (toNumber p).isFin = true) :
    leftCond ord x p = decide (keyOrd ord x < keyOrd ord p) := by
  cases ord with
  | asc =>
    simp only [leftCond, compareValues_fin x p hx hp, isNegB, keyOrd]
    exact decide_eq_decide.mpr (Rat.num_neg.trans sub_neg)
  | desc =>
    simp only [leftCond, compareValues_fin x p hx hp, isPosB, keyOrd]
    exact decide_eq_decide.mpr (Rat.num_pos.trans
      (sub_pos.trans (by constructor <;> intro h <;> linarith)))

/-- The quicksort right condition on finite operands compares the keys. -/
theorem rightCond_char (ord : SortOrder) (x p : JSElem) (hx : (toNumber x).isFin = true)
    (hp : (toNumber p).isFin = true) :
    rightCond ord x p = decide (keyOrd ord p < keyOrd ord x) := by
  cases ord with
  | asc =>
    simp only [rightCond, compareValues_fin x p hx hp, isPosB, keyOrd]
    exact decide_eq_decide.mpr (Rat.num_pos.trans sub_pos)
  | desc =>
    simp only [rightCond, compareValues_fin x p hx hp, isNegB, keyOrd]
    exact decide_eq_decide.mpr (Rat.num_neg.trans
      (sub_neg.trans (by constructor <;> intro h <;> linarith)))

/-- Finiteness transfers backwards along permutations. -/
theorem finite_of_perm {l1 l2 : List JSElem} (h : l1.Perm l2) (hf : FiniteElems l2) :
    FiniteElems l1 :=
  fun x hx => hf x (h.mem_iff.mp hx)

/-- Finiteness restricts to subsets. -/
theorem finite_sub {l1 l2 : List JSElem} (h : l1 ⊆ l2) (hf : FiniteElems l2) :
    FiniteElems l1 :=
  fun x hx => hf x (h hx)

/-- After a bounded pass with fuel k, position k holds an upper bound of
the first k+1 input elements (with respect to the direction key). -/
theorem bubblePass_max (ord : SortOrder) :
    ∀ (k : Nat) (l : List JSElem), k < l.length → FiniteElems l →
      ∃ m, (bubblePass ord k l).get? k = some m
        ∧ ∀ x ∈ l.take (k + 1), keyOrd ord x ≤ keyOrd ord m := by
  intro k
  induction k with
  | zero =>
    intro l hk hf
    cases l with
    | nil => simp at hk
    | cons c t =>
      refine ⟨c, rfl, ?_⟩
      intro x hx
      simp only [List.take, List.take_zero, List.mem_singleton] at hx
      rw [hx]
  | succ k ih =>
    intro l hk hf
    cases l with
    | nil => simp at hk
    | cons a t0 =>
      cases t0 with
      | nil => simp at hk
      | cons b t =>
        have hfa : (toNumber a).isFin = true := hf a (by simp)
        have hfb : (toNumber b).isFin = true := hf b (by simp)
        by_cases hsw : swapCond ord a b = true
        · have hstep : bubblePass ord (k + 1) (a :: b :: t)
              = b :: bubblePass ord k (a :: t) := by
            show (if swapCond ord a b = true then _ else _) = _
            rw [if_pos hsw]
          have hsub : (a :: t) ⊆ (a :: b :: t) := by
            intro y hy
            rcases List.mem_cons.mp hy with rfl | hy2
            · exact List.mem_cons_self _ _
            · exact List.mem_cons_of_mem _ (List.mem_cons_of_mem _ hy2)
          obtain ⟨m, hm, hbound⟩ := ih (a :: t) (by simp at hk ⊢; omega) (finite_sub hsub hf)
          refine ⟨m, ?_, ?_⟩
          · rw [hstep]
            simpa using hm
          · intro x hx
            rw [swapCond_char ord a b hfa hfb] at hsw
            have hba : keyOrd ord b < keyOrd ord a := of_decide_eq_true hsw
            have hmem_a : a ∈ (a :: t).take (k + 1) := by
              rw [List.take_succ_cons]
              exact List.mem_cons_self _ _
            have hx3 : x = a ∨ x = b ∨ x ∈ t.take k := by
              simpa [List.take_succ_cons] using hx
            rcases hx3 with rfl | rfl | hx4
            · exact hbound x hmem_a
            · exact le_trans (le_of_lt hba) (hbound a hmem_a)
            · refine hbound x ?_
              rw [List.take_succ_cons]
              exact List.mem_cons_of_mem _ hx4
        · have hstep : bubblePass ord (k + 1) (a :: b :: t)
              = a :: bubblePass ord k (b :: t) := by
            show (if swapCond ord a b = true then _ else _) = _
            rw [if_neg hsw]
          have hsub : (b :: t) ⊆ (a :: b :: t) := by
            intro y hy
            exact List.mem_cons_of_mem _ hy
          obtain ⟨m, hm, hbound⟩ := ih (b :: t) (by simp at hk ⊢; omega) (finite_sub hsub hf)
          refine ⟨m, ?_, ?_⟩
          · rw [hstep]
            simpa using hm
          · intro x hx
            rw [swapCond_char ord a b hfa hfb] at hsw
            have hab : keyOrd ord a ≤ keyOrd ord b := not_lt.mp (of_decide_eq_false
              (eq_false_of_ne_true hsw))
            have hmem_b : b ∈ (b :: t).take (k + 1) := by
              rw [List.take_succ_cons]
              exact List.mem_cons_self _ _
            have hx3 : x = a ∨ x = b ∨ x ∈ t.take k := by
              simpa [List.take_succ_cons] using hx
            rcases hx3 with rfl | rfl | hx4
            · exact le_trans hab (hbound b hmem_b)
            · exact hbound x hmem_b
            · refine hbound x ?_
              rw [List.take_succ_cons]
              exact List.mem_cons_of_mem _ hx4

/-- A bounded pass with fuel k does not touch positions beyond k. -/
theorem bubblePass_drop (ord : SortOrder) :
    ∀ (k : Nat) (l : List JSElem), (bubblePass ord k l).drop (k + 1) = l.drop (k + 1) := by
  intro k
  induction k with
  | zero => intro l; rfl
  | succ k ih =>
    intro l
    cases l with
    | nil => rfl
    | cons a t0 =>
      cases t0 with
      | nil => rfl
      | cons b t =>
        by_cases hsw : swapCond ord a b = true
        · have hstep : bubblePass ord (k + 1) (a :: b :: t)
              = b :: bubblePass ord k (a :: t) := by
            show (if swapCond ord a b = true then _ else _) = _
            rw [if_pos hsw]
          rw [hstep]
          show (bubblePass ord k (a :: t)).drop (k + 1) = (a :: b :: t).drop (k + 2)
          rw [ih (a :: t)]
          rfl
        · have hstep : bubblePass ord (k + 1) (a :: b :: t)
              = a :: bubblePass ord k (b :: t) := by
            show (if swapCond ord a b = true then _ else _) = _
            rw [if_neg hsw]
          rw [hstep]
          show (bubblePass ord k (b :: t)).drop (k + 1) = (a :: b :: t).drop (k + 2)
          rw [ih (b :: t)]
          rfl

/-- Equal suffixes of a permutation pair force the prefixes to permute. -/
theorem take_perm_of_perm_drop_eq {l1 l2 : List JSElem} (n : Nat) (h : l1.Perm l2)
    (hd : l1.drop n = l2.drop n) : (l1.take n).Perm (l2.take n) := by
  have hsplit : (l1.take n ++ l1.drop n).Perm (l2.take n ++ l2.drop n) := by
    rw [List.take_append_drop, List.take_append_drop]
    exact h
  rw [hd] at hsplit
  exact (List.perm_append_right_iff _).mp hsplit

/-- Membership in a shorter prefix gives membership in a longer one. -/
theorem mem_take_mono {l : List JSElem} {m n : Nat} (hmn : m ≤ n) {x : JSElem}
    (hx : x ∈ l.take m) : x ∈ l.take n := by
  have heq : l.take m = (l.take n).take m := by
    rw [List.take_take, min_eq_left hmn]
  rw [heq] at hx
  exact List.take_subset m (l.take n) hx

/-- An element reported at an index lies in the prefix past that index. -/
theorem get?_mem_take {l : List JSElem} {n : Nat} {m : JSElem} (h : l.get? n = some m) :
    m ∈ l.take (n + 1) := by
  have hx : (l.take (n + 1)).get? n = some m := by
    rw [List.get?_take (by omega)]
    exact h
  exact List.get?_mem hx

/-- Splitting a drop at a known element. -/
theorem drop_cons_of_get? {l : List JSElem} {n : Nat} {m : JSElem} (h : l.get? n = some m) :
    l.drop n = m :: l.drop (n + 1) := by
  rcases List.get?_eq_some.mp h with ⟨hlt, hget⟩
  rw [List.drop_eq_get_cons hlt, hget]

/-- Bubble invariant: if positions past k+1 are already sorted and dominate
the first k+1 positions, the remaining passes sort the whole list. -/
theorem bubbleSpec_sorted (ord : SortOrder) :
    ∀ (k : Nat) (l : List JSElem), k < l.length → FiniteElems l →
      (l.drop (k + 1)).Pairwise (fun a b => keyOrd ord a ≤ keyOrd ord b) →
      (∀ x ∈ l.take (k + 1), ∀ y ∈ l.drop (k + 1), keyOrd ord x ≤ keyOrd ord y) →
      (bubbleSpec ord k l).Pairwise (fun a b => keyOrd ord a ≤ keyOrd ord b) := by
  intro k
  induction k with
  | zero =>
    intro l hk hf hsorted hbound
    show l.Pairwise _
    cases l with
    | nil => exact List.Pairwise.nil
    | cons c t =>
      refine List.Pairwise.cons ?_ hsorted
      intro y hy
      exact hbound c (by simp) y hy
  | succ k ih =>
    intro l hk hf hsorted hbound
    show (bubbleSpec ord k (bubblePass ord (k + 1) l)).Pairwise _
    have hperm : (bubblePass ord (k + 1) l).Perm l := bubblePass_perm ord (k + 1) l
    have hlen : (bubblePass ord (k + 1) l).length = l.length := hperm.length_eq
    have hfP : FiniteElems (bubblePass ord (k + 1) l) := finite_of_perm hperm hf
    obtain ⟨m, hm, hmax⟩ := bubblePass_max ord (k + 1) l hk hf
    have hdropP : (bubblePass ord (k + 1) l).drop (k + 2) = l.drop (k + 2) :=
      bubblePass_drop ord (k + 1) l
    have hdP : (bubblePass ord (k + 1) l).drop (k + 1) = m :: l.drop (k + 2) := by
      rw [drop_cons_of_get? hm, hdropP]
    have htakeP : ((bubblePass ord (k + 1) l).take (k + 2)).Perm (l.take (k + 2)) :=
      take_perm_of_perm_drop_eq (k + 2) hperm hdropP
    have hmem_m : m ∈ l.take (k + 2) :=
      htakeP.mem_iff.mp (get?_mem_take hm)
    refine ih (bubblePass ord (k + 1) l) (by omega) hfP ?_ ?_
    · rw [hdP]
      refine List.Pairwise.cons ?_ hsorted
      intro y hy
      exact hbound m hmem_m y hy
    · intro x hx y hy
      have hxl : x ∈ l.take (k + 2) := htakeP.mem_iff.mp (mem_take_mono (by omega) hx)
      rw [hdP] at hy
      rcases List.mem_cons.mp hy with rfl | hy2
      · exact hmax x hxl
      · exact hbound x hxl y hy2

/-- On finite-coercion elements the bubble kernel sorts by the direction
key. -/
theorem bubbleRun_sorted (ord : SortOrder) (l : List JSElem) (hf : FiniteElems l) :
    (bubbleRun ord l).Pairwise (fun a b => keyOrd ord a ≤ keyOrd ord b) := by
  rw [bubbleRun_eq_spec]
  cases hn : l.length with
  | zero =>
    rcases List.length_eq_zero.mp hn with rfl
    exact List.Pairwise.nil
  | succ n =>
    rw [show n + 1 - 1 = n from by omega]
    refine bubbleSpec_sorted ord n l (by omega) hf ?_ ?_
    · rw [show n + 1 = l.length from by omega, List.drop_length]
      exact List.Pairwise.nil
    · intro x hx y hy
      rw [show n + 1 = l.length from by omega, List.drop_length] at hy
      cases hy

/-- A constant-key list is sorted. -/
theorem pairwise_le_of_const (ord : SortOrder) (c : ℚ) :
    ∀ B : List JSElem, (∀ x ∈ B, keyOrd ord x = c) →
      B.Pairwise (fun a b => keyOrd ord a ≤ keyOrd ord b) := by
  intro B
  induction B with
  | nil => intro h; exact List.Pairwise.nil
  | cons x t ihB =>
    intro h
    refine List.Pairwise.cons ?_ (ihB fun y hy => h y (List.mem_cons_of_mem x hy))
    intro y hy
    rw [h x (List.mem_cons_self x t), h y (List.mem_cons_of_mem x hy)]


/-- On finite-coercion elements the quicksort kernel sorts by the direction
key. -/
theorem qsortRec_sorted (ord : SortOrder) :
    ∀ (n : Nat) (l : List JSElem), l.length = n → FiniteElems l →
      (qsortRec ord l).Pairwise (fun a b => keyOrd ord a ≤ keyOrd ord b) := by
  intro n
  induction n using Nat.strong_induction_on with
  | _ n ih =>
    intro l hl hf
    by_cases hshort : l.length ≤ 1
    · rw [qsortRec_base ord l hshort]
      cases l with
      | nil => exact List.Pairwise.nil
      | cons a t =>
        cases t with
        | nil => simp
        | cons b u => simp at hshort
    · have hlt : l.length / 2 < l.length := Nat.div_lt_self (by omega) (by omega)
      obtain ⟨p, hp⟩ :
          ∃ p, ∀ hlt2 : l.length / 2 < l.length, l.get ⟨l.length / 2, hlt2⟩ = p :=
        ⟨l.get ⟨l.length / 2, hlt⟩, fun _ => rfl⟩
      have hpmem : p ∈ l := by
        rw [← hp hlt]
        exact l.get_mem _ _
      have hfp : (toNumber p).isFin = true := hf p hpmem
      rw [qsortRec_step2 ord l p hshort hp]
      have hLmem : ∀ x ∈ l.filter (fun x => leftCond ord x p),
          keyOrd ord x < keyOrd ord p := by
        intro x hx
        have hxl : x ∈ l := List.mem_of_mem_filter hx
        have hcond := List.of_mem_filter hx
        rw [leftCond_char ord x p (hf x hxl) hfp] at hcond
        exact of_decide_eq_true hcond
      have hRmem : ∀ x ∈ l.filter (fun x => rightCond ord x p),
          keyOrd ord p < keyOrd ord x := by
        intro x hx
        have hxl : x ∈ l := List.mem_of_mem_filter hx
        have hcond := List.of_mem_filter hx
        rw [rightCond_char ord x p (hf x hxl) hfp] at hcond
        exact of_decide_eq_true hcond
      have hMmem : ∀ x ∈ l.filter (fun x => !leftCond ord x p && !rightCond ord x p),
          keyOrd ord x = keyOrd ord p := by
        intro x hx
        have hxl : x ∈ l := List.mem_of_mem_filter hx
        have hcc : leftCond ord x p = false ∧ rightCond ord x p = false := by
          simpa using List.of_mem_filter hx
        obtain ⟨hc1, hc2⟩ := hcc
        rw [leftCond_char ord x p (hf x hxl) hfp] at hc1
        rw [rightCond_char ord x p (hf x hxl) hfp] at hc2
        have h1 : ¬(keyOrd ord x < keyOrd ord p) := of_decide_eq_false hc1
        have h2 : ¬(keyOrd ord p < keyOrd ord x) := of_decide_eq_false hc2
        exact le_antisymm (not_lt.mp h2) (not_lt.mp h1)
      have hAsorted := ih _ (hl ▸ @length_filter_lt_of_mem (fun x => leftCond ord x p) l p
        hpmem (leftCond_self ord p)) _ rfl (finite_sub (List.filter_sublist l).subset hf)
      have hCsorted := ih _ (hl ▸ @length_filter_lt_of_mem (fun x => rightCond ord x p) l p
        hpmem (rightCond_self ord p)) _ rfl (finite_sub (List.filter_sublist l).subset hf)
      have hBsorted := pairwise_le_of_const ord (keyOrd ord p) _ hMmem
      have hqA : ∀ x ∈ qsortRec ord (l.filter (fun x => leftCond ord x p)),
          keyOrd ord x < keyOrd ord p :=
        fun x hx => hLmem x ((qsortRec_perm ord _).mem_iff.mp hx)
      have hqC : ∀ x ∈ qsortRec ord (l.filter (fun x => rightCond ord x p)),
          keyOrd ord p < keyOrd ord x :=
        fun x hx => hRmem x ((qsortRec_perm ord _).mem_iff.mp hx)
      rw [List.pairwise_append]
      refine ⟨?_, hCsorted, ?_⟩
      · rw [List.pairwise_append]
        refine ⟨hAsorted, hBsorted, ?_⟩
        intro x hxA y hyB
        exact le_trans (le_of_lt (hqA x hxA)) (le_of_eq (hMmem y hyB).symm)
      · intro x hxAB y hyC
        rcases List.mem_append.mp hxAB with hxA | hxB
        · exact le_of_lt (lt_trans (hqA x hxA) (hqC y hyC))
        · exact le_of_lt (lt_of_le_of_lt (le_of_eq (hMmem x hxB)) (hqC y hyC))

/-- Two sorted permutations of each other with pairwise-distinct keys are
equal: the sorted arrangement under an injective key is unique. -/
theorem sorted_key_unique (f : JSElem → ℚ) :
    ∀ l1 l2 : List JSElem, l1.Perm l2 →
      l1.Pairwise (fun a b => f a ≤ f b) → l2.Pairwise (fun a b => f a ≤ f b) →
      (l1.map f).Nodup → l1 = l2 := by
  intro l1
  induction l1 with
  | nil =>
    intro l2 hperm _ _ _
    exact (hperm.symm.eq_nil).symm
  | cons a t1 ih =>
    intro l2 hperm hs1 hs2 hnd
    cases l2 with
    | nil =>
      exact absurd hperm.eq_nil (by simp)
    | cons b t2 =>
      have hbmem : b ∈ a :: t1 := hperm.mem_iff.mpr (List.mem_cons_self b t2)
      have hamem : a ∈ b :: t2 := hperm.mem_iff.mp (List.mem_cons_self a t1)
      have hab : f a = f b := by
        rcases List.mem_cons.mp hbmem with he | hbt
        · rw [he]
        · rcases List.mem_cons.mp hamem with he | hat
          · rw [he]
          · exact le_antisymm (List.rel_of_pairwise_cons hs1 hbt)
              (List.rel_of_pairwise_cons hs2 hat)
      have hae : a = b := by
        rcases List.mem_cons.mp hbmem with he | hbt
        · exact he.symm
        · exfalso
          have hnd2 : f a ∉ t1.map f ∧ (t1.map f).Nodup := by
            simpa [List.nodup_cons] using hnd
          have h2 : f b ∈ t1.map f := List.mem_map_of_mem f hbt
          rw [← hab] at h2
          exact hnd2.1 h2
      subst hae
      have hperm2 : t1.Perm t2 := hperm.cons_inv
      have htail := ih t2 hperm2 (List.Pairwise.of_cons hs1) (List.Pairwise.of_cons hs2)
        (by simpa [List.nodup_cons] using (List.nodup_cons.mp (by simpa using hnd)).2)
      rw [htail]

/-- Distinct plain keys give distinct direction keys. -/
theorem nodup_keyOrd_of (ord : SortOrder) {l : List JSElem}
    (h : (l.map keyQ).Nodup) : (l.map (keyOrd ord)).Nodup := by
  cases ord with
  | asc => exact h
  | desc =>
    have h2 : ((l.map keyQ).map Neg.neg).Nodup := List.Nodup.map neg_injective h
    rw [List.map_map] at h2
    exact h2

/-- On finite-coercion elements with pairwise-distinct keys the two sorting
kernels produce the same sequence. -/
theorem bubble_qsort_agree (ord : SortOrder) (l : List JSElem) (hf : FiniteElems l)
    (hnd : (l.map keyQ).Nodup) : bubbleRun ord l = qsortRec ord l := by
  have h1 := bubbleRun_perm ord l
  have h2 := qsortRec_perm ord l
  exact sorted_key_unique (keyOrd ord) _ _ (h1.trans h2.symm)
    (bubbleRun_sorted ord l hf) (qsortRec_sorted ord l.length l rfl hf)
    (((h1.map (keyOrd ord)).nodup_iff).mpr (nodup_keyOrd_of ord hnd))

/-- The order flag carried by each sort direction. -/
def orderFlag : SortOrder → JSArg
  | .asc => .elemv (.str "asc")
  | .desc => .elemv (.str "desc")

/-- C1 (amended): on arrays whose elements all coerce to finite numbers
with pairwise-distinct numeric values, bubbleSort and quickSort produce
element-for-element identical results for the same order flag (the general
claim fails: see the counterexample with an inconsistent comparator). -/
theorem C1_theorem (l : List JSElem) (ord : SortOrder) (hf : FiniteElems l)
    (hnd : (l.map keyQ).Nodup) :
    bubbleSortOp (.arrv l) (orderFlag ord) = quickSortOp (.arrv l) (orderFlag ord) := by
  cases l with
  | nil => cases ord <;> rfl
  | cons a t =>
    have hval : sortArrValidation (.arrv (a :: t)) = .ok () := rfl
    have hordval : orderValidation (orderFlag ord) = .ok () := by cases ord <;> rfl
    have hparse : argOrder (orderFlag ord) = ord := by
      cases ord with
      | asc => rfl
      | desc => rfl
    simp only [bubbleSortOp, quickSortOp, hval, hordval, hparse]
    rw [bubble_qsort_agree ord (a :: t) hf hnd]

/-- C1 witness: a two-element finite-key array on which both operations
agree by the amended theorem. -/
theorem C1_witness :
    bubbleSortOp (.arrv [.num (.fin 2), .str "1"]) (orderFlag .asc)
      = quickSortOp (.arrv [.num (.fin 2), .str "1"]) (orderFlag .asc) :=
  C1_theorem [.num (.fin 2), .str "1"] .asc (by decide) (by decide)

/-- C1 counterexample to the original claim: on [10, "5x", 9] ascending the
bubble kernel yields [9, 10, "5x"] while the quicksort kernel yields
[10, "5x", 9] (the comparator is inconsistent between "5x" and the numbers,
since it stringifies the coerced NaN), so the two operations differ. -/
theorem C1_counterexample :
    bubbleSortOp (.arrv [.num (.fin 10), .str "5x", .num (.fin 9)]) (.elemv (.str "asc"))
      ≠ quickSortOp (.arrv [.num (.fin 10), .str "5x", .num (.fin 9)])
          (.elemv (.str "asc")) := by
  have hb : bubbleSortOp (.arrv [.num (.fin 10), .str "5x", .num (.fin 9)])
      (.elemv (.str "asc"))
      = .ok [.num (.fin 9), .num (.fin 10), .str "5x"] := rfl
  have hq0 : qsortRec .asc [.num (.fin 10), .str "5x", .num (.fin 9)]
      = [.num (.fin 10), .str "5x", .num (.fin 9)] := by
    rw [qsortRec_step .asc _ (by decide)]
    show qsortRec .asc [.num (.fin 10)] ++ [.str "5x"] ++ qsortRec .asc [.num (.fin 9)]
        = [.num (.fin 10), .str "5x", .num (.fin 9)]
    rw [qsortRec_base .asc [.num (.fin 10)] (by decide),
      qsortRec_base .asc [.num (.fin 9)] (by decide)]
    rfl
  have hq : quickSortOp (.arrv [.num (.fin 10), .str "5x", .num (.fin 9)])
      (.elemv (.str "asc"))
      = .ok [.num (.fin 10), .str "5x", .num (.fin 9)] := by
    show Except.ok (qsortRec .asc [.num (.fin 10), .str "5x", .num (.fin 9)])
        = .ok [.num (.fin 10), .str "5x", .num (.fin 9)]
    rw [hq0]
  rw [hb, hq]
  intro hcontra
  have : ([.num (.fin 9), .num (.fin 10), .str "5x"] : List JSElem)
      = [.num (.fin 10), .str "5x", .num (.fin 9)] := by
    injection hcontra
  simp at this

/-- For any kernel that permutes and sorts by the direction key, sorting
descending after ascending reverses the ascending result, provided the keys
are pairwise distinct. -/
theorem sort_desc_asc_reverse (sortK : SortOrder → List JSElem → List JSElem)
    (hperm : ∀ ord l, (sortK ord l).Perm l)
    (hsorted : ∀ ord l, FiniteElems l →
      (sortK ord l).Pairwise (fun a b => keyOrd ord a ≤ keyOrd ord b))
    (l : List JSElem) (hf : FiniteElems l) (hnd : (l.map keyQ).Nodup) :
    sortK .desc (sortK .asc l) = (sortK .asc l).reverse := by
  have hRperm : (sortK .asc l).Perm l := hperm .asc l
  have hfR : FiniteElems (sortK .asc l) := finite_of_perm hRperm hf
  have hndR : ((sortK .asc l).map keyQ).Nodup := ((hRperm.map keyQ).nodup_iff).mpr hnd
  have hD := hsorted .desc (sortK .asc l) hfR
  have hDperm : (sortK .desc (sortK .asc l)).Perm (sortK .asc l) := hperm .desc _
  have hRsorted := hsorted .asc l hf
  have hrev : ((sortK .asc l).reverse).Pairwise
      (fun a b => keyOrd .desc a ≤ keyOrd .desc b) := by
    rw [List.pairwise_reverse]
    refine hRsorted.imp ?_
    intro a b hab
    show -keyQ b ≤ -keyQ a
    exact neg_le_neg hab
  have hrevperm : ((sortK .asc l).reverse).Perm (sortK .asc l) := List.reverse_perm _
  exact sorted_key_unique (keyOrd .desc) _ _ (hDperm.trans hrevperm.symm) hD hrev
    (((hDperm.map (keyOrd .desc)).nodup_iff).mpr (nodup_keyOrd_of .desc hndR))

/-- C5 (amended): on arrays whose elements all coerce to finite numbers
with pairwise-distinct numeric values, sorting ascending and then sorting
the result descending yields exactly the reverse of the ascending result,
for both the bubble and the quicksort kernel (the general claim fails on
ties and on non-numeric elements, see the counterexample). -/
theorem C5_theorem (l : List JSElem) (hf : FiniteElems l)
    (hnd : (l.map keyQ).Nodup) :
    bubbleRun .desc (bubbleRun .asc l) = (bubbleRun .asc l).reverse
      ∧ qsortRec .desc (qsortRec .asc l) = (qsortRec .asc l).reverse :=
  ⟨sort_desc_asc_reverse bubbleRun bubbleRun_perm
      (fun ord l2 hf2 => bubbleRun_sorted ord l2 hf2) l hf hnd,
    sort_desc_asc_reverse qsortRec qsortRec_perm
      (fun ord l2 hf2 => qsortRec_sorted ord l2.length l2 rfl hf2) l hf hnd⟩

/-- C5 witness: a two-element array with distinct finite keys on which the
descending re-sort is the reverse of the ascending result. -/
theorem C5_witness :
    bubbleRun .desc (bubbleRun .asc [.num (.fin 2), .str "1"])
        = (bubbleRun .asc [.num (.fin 2), .str "1"]).reverse
      ∧ qsortRec .desc (qsortRec .asc [.num (.fin 2), .str "1"])
          = (qsortRec .asc [.num (.fin 2), .str "1"]).reverse :=
  C5_theorem [.num (.fin 2), .str "1"] (by decide) (by decide)

/-- C5 counterexample to the original claim: on the tie [3, "3"] (the
number and the numeric string compare equal) the ascending result is
[3, "3"], the descending re-sort leaves it as [3, "3"], but the reverse is
["3", 3]; already the bubble algorithm violates the claimed identity. -/
theorem C5_counterexample :
    bubbleRun .desc (bubbleRun .asc [.num (.fin 3), .str "3"])
      ≠ (bubbleRun .asc [.num (.fin 3), .str "3"]).reverse := by
  decide
